import Mathlib

/-!
# Verification of the tomox order-book matching engine

Shallow embedding of the order-book core from `tomox/orderbook.go`,
`tomox/ordertree.go` and `tomox/order.go` (package `tomox`), together with
proofs about the claims of the specification.

Modelling conventions, fixed once and used throughout:

* Go `*big.Int` prices/quantities are Lean `Int` (arbitrary precision in both).
* Go `uint64` fields (`Time`, `NextOrderID`, `UpdatedAt`, `OrderID`) are `Nat`;
  the code only ever increments them, no claim involves wraparound at 2^64.
* Pointers to `Order` and `OrderList` objects are modelled as `Nat` addresses
  into two heaps (`State.orders`, `State.lists`); `nil` is `Option.none`.
  A Go nil-pointer dereference (a panic) is modelled by an operation returning
  `Option.none`; operations that cannot panic return plain values.
* The red-black tree `PriceTree` is a key-value map keyed by price whose values
  are only ever read through their `Price` field, so it is modelled as its list
  of keys: `Put` inserts the key if absent, `Remove` erases it, `GetMax`/`GetMin`
  return the maximum/minimum key.
* Go `map[string]*OrderList` / `map[string]*Order` are keyed by
  `price.String()` / `strconv.FormatUint(orderID, 10)`; both conversions are
  injective, so the maps are modelled as association lists keyed by the
  `Int` price / `Nat` order id directly.
* Database persistence (`Db`, `Save`, `SaveOrder`, keys, slots, hashes) is pure
  logging/storage of the spec's external Store collaborator and never feeds back
  into the algorithms; it is dropped from the model, together with the payload
  fields (`ExchangeAddress`, fees, signature, hash, ...) that no core operation
  reads or writes.
* `time.Now()` in `UpdateTime` is passed in as an explicit `now` parameter.
* The unbounded Go `for` loops of the matching engine are modelled with an
  explicit fuel parameter; exhausting the fuel yields `none`.  On well-formed
  books the loops terminate, and every theorem about a loop takes the
  hypothesis that the run produced `some` result.
-/

set_option linter.unusedVariables false

namespace Tomox

/-! # Definitions -/

/-- Association-list lookup (first binding wins), modelling a Go map read. -/
def lookupA {α β : Type} [DecidableEq α] : List (α × β) → α → Option β
  | [], _ => none
  | (k2, v) :: rest, k => if k2 = k then some v else lookupA rest k

/-- Association-list insert/overwrite, modelling a Go map write. -/
def insertA {α β : Type} [DecidableEq α] : List (α × β) → α → β → List (α × β)
  | [], k, v => [(k, v)]
  | (k2, v2) :: rest, k, v =>
    if k2 = k then (k, v) :: rest else (k2, v2) :: insertA rest k v

/-- Association-list delete, modelling a Go map `delete`. -/
def eraseA {α β : Type} [DecidableEq α] : List (α × β) → α → List (α × β)
  | [], _ => []
  | (k2, v2) :: rest, k =>
    if k2 = k then rest else (k2, v2) :: eraseA rest k

/-- Key set insert for the price tree: `rbt.Put` on a key already present only
overwrites the value, so the key list is unchanged. -/
def treePut (l : List Int) (p : Int) : List Int :=
  if p ∈ l then l else p :: l

/-- Key removal for the price tree (`rbt.Remove`). -/
def treeRemove (l : List Int) (p : Int) : List Int :=
  l.erase p

/-- Maximum key of the price tree (`RedBlackTreeExtended.GetMax`); `none` plays
the role of the `found == false` result on an empty tree. -/
def treeMax : List Int → Option Int
  | [] => none
  | a :: l => some (l.foldl max a)

/-- Minimum key of the price tree (`RedBlackTreeExtended.GetMin`). -/
def treeMin : List Int → Option Int
  | [] => none
  | a :: l => some (l.foldl min a)

/-- Constant `Bid = "BUY"` from orderbook.go. -/
def Bid : String := "BUY"

/-- Constant `Ask = "SELL"` from orderbook.go. -/
def Ask : String := "SELL"

/-- Constant `Market = "market"`; the dispatch in `ProcessOrder` compares
against the literal `"market"`. -/
def Market : String := "market"

/-- One order record (struct `Order` of order.go), restricted to the fields the
matching algorithms read or write.  `typ` is the Go field `Type` (a Lean
keyword).  `nextOrder`, `prevOrder` are the doubly-linked-list neighbour
pointers, `orderList` the back reference to the containing price list. -/
structure Order where
  quantity : Int
  price : Int
  side : String
  typ : String
  updatedAt : Nat
  orderID : Nat
  nextOrder : Option Nat
  prevOrder : Option Nat
  orderList : Option Nat
  deriving Repr, DecidableEq

/-- One price level (struct `OrderList` of order.go): FIFO queue of orders.
`hOrder`/`tOrder` are the head/tail pointers, `len` the Go `int` field `Len`. -/
structure OrderList where
  hOrder : Option Nat
  tOrder : Option Nat
  len : Int
  volume : Int
  price : Int
  deriving Repr, DecidableEq

/-- One side of the book (struct `OrderTree` of ordertree.go).  `priceTree` is
the key list of the red-black tree, `priceMap` maps a price to the address of
its `OrderList`, `orderMap` maps an order id to the address of its `Order`. -/
structure OrderTree where
  priceTree : List Int
  priceMap : List (Int × Nat)
  orderMap : List (Nat × Nat)
  volume : Int
  numOrders : Int
  depth : Int
  deriving Repr, DecidableEq

/-- The book (struct `OrderBook` of orderbook.go), pair name and storage keys
dropped. -/
structure OrderBook where
  bids : OrderTree
  asks : OrderTree
  time : Nat
  nextOrderID : Nat
  deriving Repr, DecidableEq

/-- Whole mutable state: the two object heaps plus the book.  `nextListAddr`
is the allocator for fresh `OrderList` objects (`CreatePrice` allocates). -/
structure State where
  orders : Nat → Order
  lists : Nat → OrderList
  nextListAddr : Nat
  book : OrderBook

/-- Point update of one order object (a Go field assignment through a pointer). -/
def updOrder (σ : State) (a : Nat) (f : Order → Order) : State :=
  { σ with orders := fun i => if i = a then f (σ.orders i) else σ.orders i }

/-- Point update of one order-list object. -/
def updList (σ : State) (a : Nat) (f : OrderList → OrderList) : State :=
  { σ with lists := fun i => if i = a then f (σ.lists i) else σ.lists i }

/-- The tree of one side: `orderBook.Bids` when `isBid`, else `orderBook.Asks`. -/
def getTree (σ : State) (isBid : Bool) : OrderTree :=
  if isBid then σ.book.bids else σ.book.asks

/-- Update the tree of one side. -/
def modTree (σ : State) (isBid : Bool) (f : OrderTree → OrderTree) : State :=
  if isBid then
    { σ with book := { σ.book with bids := f σ.book.bids } }
  else
    { σ with book := { σ.book with asks := f σ.book.asks } }

/-! ## OrderList operations (order.go) -/
/-- `OrderList.AppendOrder` (order.go): place the order at the tail of the
list, then bump `Len` and `Volume`.  The `else` branch dereferences `TOrder`,
so a corrupt list with `Len ≠ 0` and a nil tail panics (`none`). -/
def appendOrder (σ : State) (la oa : Nat) : Option State :=
  let l := σ.lists la
  if l.len = 0 then
    let σ1 := updOrder σ oa fun o => { o with nextOrder := none, prevOrder := none }
    some (updList σ1 la fun l2 =>
      { l2 with hOrder := some oa, tOrder := some oa,
                len := l2.len + 1, volume := l2.volume + (σ1.orders oa).quantity })
  else
    match l.tOrder with
    | none => none
    | some t =>
      let σ1 := updOrder σ oa fun o => { o with prevOrder := l.tOrder, nextOrder := none }
      let σ2 := updOrder σ1 t fun o => { o with nextOrder := some oa }
      some (updList σ2 la fun l2 =>
        { l2 with tOrder := some oa,
                  len := l2.len + 1, volume := l2.volume + (σ2.orders oa).quantity })

/-- `OrderList.RemoveOrder` (order.go): subtract the order's quantity from
`Volume`, decrement `Len`, and — unless the list just became empty (the code
returns early, leaving `HOrder`/`TOrder` dangling) — repatch the neighbours.
Never dereferences nil, hence total. -/
def removeOrder (σ : State) (la oa : Nat) : State :=
  let o := σ.orders oa
  let σ1 := updList σ la fun l =>
    { l with volume := l.volume - o.quantity, len := l.len - 1 }
  if (σ1.lists la).len = 0 then σ1
  else
    match o.nextOrder, o.prevOrder with
    | some n, some p =>
      updOrder (updOrder σ1 n fun x => { x with prevOrder := some p })
        p fun x => { x with nextOrder := some n }
    | some n, none =>
      updList (updOrder σ1 n fun x => { x with prevOrder := none })
        la fun l => { l with hOrder := some n }
    | none, some p =>
      updList (updOrder σ1 p fun x => { x with nextOrder := none })
        la fun l => { l with tOrder := some p }
    | none, none => σ1

/-- `OrderList.MoveToTail` (order.go).  The second statement dereferences
`order.NextOrder` and the third dereferences `orderlist.TOrder`; a nil in
either place panics (`none`).  Note the source never clears the moved order's
own `NextOrder`/`PrevOrder` fields. -/
def moveToTail (σ : State) (la oa : Nat) : Option State :=
  let o := σ.orders oa
  let σ1 :=
    match o.prevOrder with
    | some p => updOrder σ p fun x => { x with nextOrder := o.nextOrder }
    | none => updList σ la fun l => { l with hOrder := o.nextOrder }
  match (σ1.orders oa).nextOrder with
  | none => none
  | some n =>
    match ((updOrder σ1 n fun x =>
        { x with prevOrder := (σ1.orders oa).prevOrder }).lists la).tOrder with
    | none => none
    | some t =>
      some (updList (updOrder (updOrder σ1 n fun x =>
          { x with prevOrder := (σ1.orders oa).prevOrder }) t
        fun x => { x with nextOrder := some oa }) la fun l => { l with tOrder := some oa })

/-- `Order.UpdateQuantity` (order.go): move to the tail when the quantity
strictly increases and the order is not already the tail (`TOrder != o` is a
pointer comparison), adjust the list's volume by the delta, then store the new
timestamp and quantity.  Every path dereferences `o.OrderList`, so a nil back
reference panics (`none`). -/
def updateQuantity (σ : State) (oa : Nat) (newQuantity : Int) (newTimestamp : Nat) :
    Option State :=
  let o := σ.orders oa
  match o.orderList with
  | none => none
  | some la => do
    let σ1 ←
      if newQuantity > o.quantity ∧ (σ.lists la).tOrder ≠ some oa then
        moveToTail σ la oa
      else
        some σ
    let σ2 := updList σ1 la fun l =>
      { l with volume := l.volume - ((σ1.orders oa).quantity - newQuantity) }
    some (updOrder σ2 oa fun x => { x with updatedAt := newTimestamp, quantity := newQuantity })

/-! ## OrderTree operations (ordertree.go) -/
/-- `OrderTree.Length` (ordertree.go): `len(ordertree.OrderMap)`. -/
def treeLength (σ : State) (isBid : Bool) : Nat :=
  (getTree σ isBid).orderMap.length

/-- `OrderTree.PriceExist`. -/
def priceExist (σ : State) (isBid : Bool) (price : Int) : Bool :=
  (lookupA (getTree σ isBid).priceMap price).isSome

/-- `OrderTree.OrderExist`. -/
def orderExist (σ : State) (isBid : Bool) (orderId : Nat) : Bool :=
  (lookupA (getTree σ isBid).orderMap orderId).isSome

/-- `OrderTree.CreatePrice`: bump `Depth`, allocate a fresh empty `OrderList`
at the price (`NewOrderList`), put it in the price tree and the price map. -/
def createPrice (σ : State) (isBid : Bool) (price : Int) : State :=
  let la := σ.nextListAddr
  let σ1 := { σ with
    nextListAddr := la + 1,
    lists := fun i => if i = la then
      { hOrder := none, tOrder := none, len := 0, volume := 0, price := price }
      else σ.lists i }
  modTree σ1 isBid fun t =>
    { t with depth := t.depth + 1,
             priceTree := treePut t.priceTree price,
             priceMap := insertA t.priceMap price la }

/-- `OrderTree.RemovePrice`: decrement `Depth`, drop the price from the tree
and the map (both are silent no-ops in Go when the price is absent, but
`Depth` is decremented regardless). -/
def removePrice (σ : State) (isBid : Bool) (price : Int) : State :=
  modTree σ isBid fun t =>
    { t with depth := t.depth - 1,
             priceTree := treeRemove t.priceTree price,
             priceMap := eraseA t.priceMap price }

/-- `OrderTree.RemoveOrderById`: decrement `NumOrders`, look the order up
(an absent id nil-panics in Go: `none`), subtract its quantity from the tree
volume, unlink it from its list via the `OrderList` back reference (nil back
reference panics), drop the price level if the list emptied (using
`order.Price`, which is correct here), and delete the id from `OrderMap`. -/
def removeOrderById (σ : State) (isBid : Bool) (orderId : Nat) : Option State :=
  let σ1 := modTree σ isBid fun t => { t with numOrders := t.numOrders - 1 }
  match lookupA (getTree σ isBid).orderMap orderId with
  | none => none
  | some oa =>
    let o := σ1.orders oa
    let σ2 := modTree σ1 isBid fun t => { t with volume := t.volume - o.quantity }
    match o.orderList with
    | none => none
    | some la =>
      let σ3 := removeOrder σ2 la oa
      let σ4 :=
        if (σ3.lists la).len = 0 then removePrice σ3 isBid ((σ3.orders oa).price)
        else σ3
      some (modTree σ4 isBid fun t => { t with orderMap := eraseA t.orderMap orderId })

/-- `OrderTree.MaxPrice`: guarded by `Depth > 0`; `GetMax` not finding a node
(empty tree) yields `Zero()`. -/
def maxPrice (σ : State) (isBid : Bool) : Int :=
  let t := getTree σ isBid
  if t.depth > 0 then (treeMax t.priceTree).getD 0 else 0

/-- `OrderTree.MinPrice`. -/
def minPrice (σ : State) (isBid : Bool) : Int :=
  let t := getTree σ isBid
  if t.depth > 0 then (treeMin t.priceTree).getD 0 else 0

/-- `OrderTree.MaxPriceList`: address of the list at `MaxPrice`; the Go nil
results (`Depth == 0`, or the price missing from `PriceMap`) are `none`. -/
def maxPriceList (σ : State) (isBid : Bool) : Option Nat :=
  if (getTree σ isBid).depth > 0 then
    lookupA (getTree σ isBid).priceMap (maxPrice σ isBid)
  else none

/-- `OrderTree.MinPriceList`. -/
def minPriceList (σ : State) (isBid : Bool) : Option Nat :=
  if (getTree σ isBid).depth > 0 then
    lookupA (getTree σ isBid).priceMap (minPrice σ isBid)
  else none

/-- `OrderTree.InsertOrder`: remove a pre-existing order with the same id,
bump `NumOrders`, create the price level if needed, set the quote's
`OrderList` back reference (`NewOrder`), append it to the level's list, record
it in `OrderMap` and add its quantity to the tree volume.  Persistence calls
are dropped (always succeed in the model). -/
def insertOrder (σ : State) (isBid : Bool) (oa : Nat) : Option State := do
  let orderId := (σ.orders oa).orderID
  let σ1 ←
    if orderExist σ isBid orderId then removeOrderById σ isBid orderId
    else some σ
  let σ2 := modTree σ1 isBid fun t => { t with numOrders := t.numOrders + 1 }
  let price := (σ2.orders oa).price
  let σ3 := if priceExist σ2 isBid price then σ2 else createPrice σ2 isBid price
  match lookupA (getTree σ3 isBid).priceMap price with
  | none => none
  | some la =>
    let σ4 := updOrder σ3 oa fun o => { o with orderList := some la }
    let σ5 ← appendOrder σ4 la oa
    let σ6 := modTree σ5 isBid fun t => { t with orderMap := insertA t.orderMap orderId oa }
    some (modTree σ6 isBid fun t => { t with volume := t.volume + (σ6.orders oa).quantity })

/-- `OrderTree.UpdateOrder` (ordertree.go), `quote` living at address `qa`.
When the price changed: unlink the stored order from the list at its *old*
price, and if that list emptied call `RemovePrice(price)` — the source passes
the *new* price here, which this model reproduces faithfully — then re-insert
the quote.  Otherwise delegate to `UpdateQuantity`.  Finally adjust the tree
volume by the stored order's quantity delta.

The Go condition `price != order.Price` compares `*big.Int` pointers; it is
modelled as value inequality, which agrees with the source whenever the two
price values differ (distinct values force distinct pointers).  All claims
about this function concern differing price values. -/
def treeUpdateOrder (σ : State) (isBid : Bool) (qa : Nat) : Option State :=
  match lookupA (getTree σ isBid).orderMap ((σ.orders qa).orderID) with
  | none => none
  | some oa => do
    let originalQuantity := (σ.orders oa).quantity
    let price := (σ.orders qa).price
    let σ1 ←
      if price ≠ (σ.orders oa).price then
        match lookupA (getTree σ isBid).priceMap ((σ.orders oa).price) with
        | none => none
        | some la => do
          let σa := removeOrder σ la oa
          let σb :=
            if (σa.lists la).len = 0 then removePrice σa isBid price
            else σa
          insertOrder σb isBid qa
      else
        updateQuantity σ oa ((σ.orders qa).quantity) ((σ.orders qa).updatedAt)
    some (modTree σ1 isBid fun t =>
      { t with volume := t.volume + ((σ1.orders oa).quantity - originalQuantity) })

/-! ## OrderBook operations (orderbook.go) -/
/-- `OrderBook.UpdateTime`, with the wall clock passed in as `now`. -/
def updateTime (σ : State) (now : Nat) : State :=
  { σ with book := { σ.book with time := now } }

/-- The `orderBook.NextOrderID++` statement of `ProcessOrder` and
`SaveOrderPending`. -/
def incNextOrderID (σ : State) : State :=
  { σ with book := { σ.book with nextOrderID := σ.book.nextOrderID + 1 } }

/-- One emitted trade record.  The Go code stores `timestamp` and `time` as
separate (identical) entries of the string map; both are kept. -/
structure Trade where
  timestamp : Nat
  price : Int
  quantity : Int
  time : Nat
  deriving Repr, DecidableEq

/-- Build the `transactionRecord` of `ProcessOrderList` from the current book
time. -/
def mkTrade (σ : State) (price quantity : Int) : Trade :=
  { timestamp := σ.book.time, price := price, quantity := quantity, time := σ.book.time }

/-- `OrderBook.ProcessOrderList` (orderbook.go): consume the head of the
price list `la` while the list is non-empty and quantity remains, per the
three-way comparison of the remaining quantity against the head's quantity.
`side` is the *opposing* side string: removals go to `Bids` when
`side == Bid`, else to `Asks`.  A nil head pointer panics (`none`);
fuel exhaustion inside the loop is `none`.

Note the final branch (`quantityToTrade > headOrder.Quantity`,
orderbook.go:201–208): the source removes the head order but never assigns
`quantityToTrade`, so the loop continues with the remaining quantity
*unchanged* against the next head — reproduced faithfully here. -/
def processOrderList (side : String) (la : Nat) :
    Nat → State → Int → Option (State × Int × List Trade)
  | 0, σ, quantityToTrade =>
    if (σ.lists la).len > 0 ∧ quantityToTrade > 0 then none
    else some (σ, quantityToTrade, [])
  | fuel + 1, σ, quantityToTrade =>
    if (σ.lists la).len > 0 ∧ quantityToTrade > 0 then
      match (σ.lists la).hOrder with
      | none => none
      | some h =>
        let ho := σ.orders h
        let tradedPrice := ho.price
        if quantityToTrade < ho.quantity then do
          let σ1 ← updateQuantity σ h (ho.quantity - quantityToTrade) ho.updatedAt
          let tr := mkTrade σ1 tradedPrice quantityToTrade
          let (σ2, q2, ts) ← processOrderList side la fuel σ1 0
          some (σ2, q2, tr :: ts)
        else if quantityToTrade = ho.quantity then do
          let σ1 ← removeOrderById σ (side == Bid) ho.orderID
          let tr := mkTrade σ1 tradedPrice quantityToTrade
          let (σ2, q2, ts) ← processOrderList side la fuel σ1 0
          some (σ2, q2, tr :: ts)
        else do
          let σ1 ← removeOrderById σ (side == Bid) ho.orderID
          let tr := mkTrade σ1 tradedPrice ho.quantity
          let (σ2, q2, ts) ← processOrderList side la fuel σ1 quantityToTrade
          some (σ2, q2, tr :: ts)
    else some (σ, quantityToTrade, [])

/-- The BUY loop of `ProcessMarketOrder`: consume the best ask level while
quantity remains and the ask tree is non-empty. -/
def marketBidLoop : Nat → State → Int → Option (State × Int × List Trade)
  | 0, σ, q =>
    if q > 0 ∧ treeLength σ false > 0 then none else some (σ, q, [])
  | fuel + 1, σ, q =>
    if q > 0 ∧ treeLength σ false > 0 then
      match minPriceList σ false with
      | none => none
      | some la => do
        let (σ1, q1, newTrades) ← processOrderList Ask la fuel σ q
        let (σ2, q2, ts) ← marketBidLoop fuel σ1 q1
        some (σ2, q2, newTrades ++ ts)
    else some (σ, q, [])

/-- The SELL loop of `ProcessMarketOrder`: consume the best bid level. -/
def marketAskLoop : Nat → State → Int → Option (State × Int × List Trade)
  | 0, σ, q =>
    if q > 0 ∧ treeLength σ true > 0 then none else some (σ, q, [])
  | fuel + 1, σ, q =>
    if q > 0 ∧ treeLength σ true > 0 then
      match maxPriceList σ true with
      | none => none
      | some la => do
        let (σ1, q1, newTrades) ← processOrderList Bid la fuel σ q
        let (σ2, q2, ts) ← marketAskLoop fuel σ1 q1
        some (σ2, q2, newTrades ++ ts)
    else some (σ, q, [])

/-- `OrderBook.ProcessMarketOrder`: dispatch on the quote's side; a side that
is neither `BUY` nor `SELL` runs no loop and returns no trades. -/
def processMarketOrder (σ : State) (qa : Nat) (fuel : Nat) :
    Option (State × List Trade) := do
  let quantityToTrade := (σ.orders qa).quantity
  let side := (σ.orders qa).side
  if side == Bid then
    let (σ1, _, trades) ← marketBidLoop fuel σ quantityToTrade
    some (σ1, trades)
  else if side == Ask then
    let (σ1, _, trades) ← marketAskLoop fuel σ quantityToTrade
    some (σ1, trades)
  else
    some (σ, [])

/-- The BUY loop of `ProcessLimitOrder`: additionally gated by
`price >= Asks.MinPrice()`, re-read every iteration. -/
def limitBidLoop (price : Int) : Nat → State → Int → Option (State × Int × List Trade)
  | 0, σ, q =>
    if q > 0 ∧ treeLength σ false > 0 ∧ price ≥ minPrice σ false then none
    else some (σ, q, [])
  | fuel + 1, σ, q =>
    if q > 0 ∧ treeLength σ false > 0 ∧ price ≥ minPrice σ false then
      match minPriceList σ false with
      | none => none
      | some la => do
        let (σ1, q1, newTrades) ← processOrderList Ask la fuel σ q
        let (σ2, q2, ts) ← limitBidLoop price fuel σ1 q1
        some (σ2, q2, newTrades ++ ts)
    else some (σ, q, [])

/-- The SELL loop of `ProcessLimitOrder`: gated by
`price <= Bids.MaxPrice()`. -/
def limitAskLoop (price : Int) : Nat → State → Int → Option (State × Int × List Trade)
  | 0, σ, q =>
    if q > 0 ∧ treeLength σ true > 0 ∧ price ≤ maxPrice σ true then none
    else some (σ, q, [])
  | fuel + 1, σ, q =>
    if q > 0 ∧ treeLength σ true > 0 ∧ price ≤ maxPrice σ true then
      match maxPriceList σ true with
      | none => none
      | some la => do
        let (σ1, q1, newTrades) ← processOrderList Bid la fuel σ q
        let (σ2, q2, ts) ← limitAskLoop price fuel σ1 q1
        some (σ2, q2, newTrades ++ ts)
    else some (σ, q, [])

/-- `OrderBook.ProcessLimitOrder`: run the consumption loop of the quote's
side, then, if quantity remains, stamp the quote with the book's
`NextOrderID`, store the remaining quantity in it, insert it into its own
side and return it as the order left in the book.  The Go `order_in_book`
starts as an empty placeholder `&Order{}`, modelled as `none`; the returned
resting order is the quote's address. -/
def processLimitOrder (σ : State) (qa : Nat) (fuel : Nat) :
    Option (State × List Trade × Option Nat) := do
  let quantityToTrade := (σ.orders qa).quantity
  let side := (σ.orders qa).side
  let price := (σ.orders qa).price
  if side == Bid then
    let (σ1, q1, trades) ← limitBidLoop price fuel σ quantityToTrade
    if q1 > 0 then
      let σ2 := updOrder σ1 qa fun o =>
        { o with orderID := σ1.book.nextOrderID, quantity := q1 }
      let σ3 ← insertOrder σ2 true qa
      some (σ3, trades, some qa)
    else
      some (σ1, trades, none)
  else if side == Ask then
    let (σ1, q1, trades) ← limitAskLoop price fuel σ quantityToTrade
    if q1 > 0 then
      let σ2 := updOrder σ1 qa fun o =>
        { o with orderID := σ1.book.nextOrderID, quantity := q1 }
      let σ3 ← insertOrder σ2 false qa
      some (σ3, trades, some qa)
    else
      some (σ1, trades, none)
  else
    some (σ, [], none)

/-- `OrderBook.ProcessOrder`: stamp the book time (`UpdateTime`, with the
clock passed in as `now`) and the quote's `UpdatedAt`, increment
`NextOrderID`, then dispatch to the market or limit path.  The market path
returns the untouched empty placeholder residual (`none`). -/
def processOrder (σ : State) (qa : Nat) (now : Nat) (fuel : Nat) :
    Option (State × List Trade × Option Nat) :=
  let σ1 := updateTime σ now
  let σ2 := updOrder σ1 qa fun o => { o with updatedAt := now }
  let σ3 := incNextOrderID σ2
  if (σ3.orders qa).typ == Market then do
    let (σ4, trades) ← processMarketOrder σ3 qa fuel
    some (σ4, trades, none)
  else
    processLimitOrder σ3 qa fuel

/-- `OrderBook.CancelOrder`: stamp the time, then remove the order by id from
the tree of its side if present; silent otherwise. -/
def cancelOrder (σ : State) (qa : Nat) (now : Nat) : Option State :=
  let σ1 := updateTime σ now
  let orderId := (σ1.orders qa).orderID
  if (σ1.orders qa).side == Bid then
    if orderExist σ1 true orderId then removeOrderById σ1 true orderId else some σ1
  else
    if orderExist σ1 false orderId then removeOrderById σ1 false orderId else some σ1

/-- `OrderBook.ModifyOrder`: stamp the time, store the target id and the
fresh timestamp into the update quote, then delegate to the side's
`UpdateOrder` when the id is present. -/
def modifyOrder (σ : State) (qa : Nat) (orderId : Nat) (now : Nat) : Option State :=
  let σ1 := updateTime σ now
  let side := (σ1.orders qa).side
  let σ2 := updOrder σ1 qa fun o => { o with orderID := orderId, updatedAt := now }
  if side == Bid then
    if orderExist σ2 true orderId then treeUpdateOrder σ2 true qa else some σ2
  else
    if orderExist σ2 false orderId then treeUpdateOrder σ2 false qa else some σ2

/-- `OrderBook.SaveOrderPending`: stamp the time, increment `NextOrderID`,
and insert the order with the fresh id into its side when its quantity is
positive (no matching loop).  Persistence dropped. -/
def saveOrderPending (σ : State) (qa : Nat) (now : Nat) : Option State := do
  let σ1 := updateTime σ now
  let σ2 := incNextOrderID σ1
  if (σ2.orders qa).side == Bid then
    if (σ2.orders qa).quantity > 0 then
      let σ3 := updOrder σ2 qa fun o => { o with orderID := σ2.book.nextOrderID }
      insertOrder σ3 true qa
    else some σ2
  else
    if (σ2.orders qa).quantity > 0 then
      let σ3 := updOrder σ2 qa fun o => { o with orderID := σ2.book.nextOrderID }
      insertOrder σ3 false qa
    else some σ2

/-- `OrderBook.VolumeAtPrice`: zero when the side has no list at the price,
else that list's volume; every non-`BUY` side reads the ask tree. -/
def volumeAtPrice (σ : State) (side : String) (price : Int) : Int :=
  if side == Bid then
    if priceExist σ true price then
      match lookupA (getTree σ true).priceMap price with
      | some la => (σ.lists la).volume
      | none => 0
    else 0
  else
    if priceExist σ false price then
      match lookupA (getTree σ false).priceMap price with
      | some la => (σ.lists la).volume
      | none => 0
    else 0

/-- Key containment between two association maps: every key present in the
first is present in the second. -/
def keySub (m1 m2 : List (Nat × Nat)) : Prop :=
  ∀ k, (lookupA m1 k).isSome = true → (lookupA m2 k).isSome = true

/-- What one consumption step on side `b` can do to the rest of the state:
the book's clock and order-id counter are untouched, the opposite tree is
untouched, the consumed side's price set only shrinks and its order map only
loses keys. -/
def consumeFrame (b : Bool) (σ σ2 : State) : Prop :=
  σ2.book.time = σ.book.time ∧
  σ2.book.nextOrderID = σ.book.nextOrderID ∧
  getTree σ2 (!b) = getTree σ (!b) ∧
  List.Sublist (getTree σ2 b).priceTree (getTree σ b).priceTree ∧
  keySub (getTree σ2 b).orderMap (getTree σ b).orderMap

/-- The tree operations never change an order's `OrderID` or `Quantity`
(they only relink `NextOrder`/`PrevOrder`/`OrderList` and touch the list and
tree records); `linkOnly σ σ2` records that fact between two states. -/
def linkOnly (σ σ2 : State) : Prop :=
  ∀ a, (σ2.orders a).orderID = (σ.orders a).orderID ∧
    (σ2.orders a).quantity = (σ.orders a).quantity

/-! ## Consistency predicate of the spec's testable properties (claim C6) -/
/-- Sum of `Len` over the order lists recorded in a tree's `PriceMap`. -/
def sumListLens (σ : State) (t : OrderTree) : Int :=
  (t.priceMap.map fun pla => (σ.lists pla.2).len).sum

/-- Sum of `Volume` over the order lists recorded in a tree's `PriceMap`. -/
def sumListVolumes (σ : State) (t : OrderTree) : Int :=
  (t.priceMap.map fun pla => (σ.lists pla.2).volume).sum

/-- The aggregate invariants of spec §8 for one `OrderTree`:
`depth = |priceMap| = |priceTree|`, `numOrders = Σ list.len`,
`volume = Σ list.volume`. -/
def treeConsistent (σ : State) (t : OrderTree) : Prop :=
  t.depth = (t.priceMap.length : Int) ∧ t.depth = (t.priceTree.length : Int) ∧
  t.numOrders = sumListLens σ t ∧ t.volume = sumListVolumes σ t

instance (σ : State) (t : OrderTree) : Decidable (treeConsistent σ t) := by
  unfold treeConsistent; infer_instance

/-! ## Concrete sample states -/
/-- The zero `Order`, standing for Go's zero value. -/
def order0 : Order :=
  { quantity := 0, price := 0, side := "", typ := "", updatedAt := 0, orderID := 0,
    nextOrder := none, prevOrder := none, orderList := none }

/-- The zero `OrderList`. -/
def list0 : OrderList :=
  { hOrder := none, tOrder := none, len := 0, volume := 0, price := 0 }

/-- An empty `OrderTree`, as built by `NewOrderTree`. -/
def emptyTree : OrderTree :=
  { priceTree := [], priceMap := [], orderMap := [], volume := 0, numOrders := 0, depth := 0 }

/-- An empty book, as built by `NewOrderBook`, with blank heaps. -/
def emptyState : State :=
  { orders := fun _ => order0, lists := fun _ => list0, nextListAddr := 0,
    book := { bids := emptyTree, asks := emptyTree, time := 0, nextOrderID := 0 } }

/-- A book whose ask side holds one resting SELL order (id 1, price 100,
quantity 5, living at heap address 1, linked in the list at address 0), and
whose order heap additionally holds, at address 2, an incoming update quote
with price 200 and quantity 5 addressed at order id 1. -/
def sampleAsk100 : State :=
  { emptyState with
    orders := fun a =>
      if a = 1 then
        { order0 with quantity := 5, price := 100, side := "SELL", typ := "limit",
                      orderID := 1, orderList := some 0 }
      else if a = 2 then
        { order0 with quantity := 5, price := 200, side := "SELL", typ := "limit",
                      orderID := 1 }
      else order0,
    lists := fun l =>
      if l = 0 then
        { hOrder := some 1, tOrder := some 1, len := 1, volume := 5, price := 100 }
      else list0,
    nextListAddr := 1,
    book :=
      { bids := emptyTree, time := 0, nextOrderID := 1,
        asks := { priceTree := [100], priceMap := [(100, 0)], orderMap := [(1, 1)],
                  volume := 5, numOrders := 1, depth := 1 } } }

/-- A book whose bid side holds one resting BUY order (id 1, price 100,
quantity 5, at heap address 1, linked in the list at address 0); address 2
holds an incoming market SELL quote of quantity 3. -/
def sampleBid100 : State :=
  { emptyState with
    orders := fun a =>
      if a = 1 then
        { order0 with quantity := 5, price := 100, side := "BUY", typ := "limit",
                      orderID := 1, orderList := some 0 }
      else if a = 2 then
        { order0 with quantity := 3, price := 0, side := "SELL", typ := "market" }
      else order0,
    lists := fun l =>
      if l = 0 then
        { hOrder := some 1, tOrder := some 1, len := 1, volume := 5, price := 100 }
      else list0,
    nextListAddr := 1,
    book :=
      { asks := emptyTree, time := 0, nextOrderID := 1,
        bids := { priceTree := [100], priceMap := [(100, 0)], orderMap := [(1, 1)],
                  volume := 5, numOrders := 1, depth := 1 } } }

/-- A book whose ask side holds two resting SELL orders of quantity 2 each
(ids 1 and 2, price 100, at heap addresses 1 and 2, linked in that order in
the list at address 0). -/
def sampleTwoAsks : State :=
  { emptyState with
    orders := fun a =>
      if a = 1 then
        { order0 with quantity := 2, price := 100, side := "SELL", typ := "limit",
                      orderID := 1, nextOrder := some 2, orderList := some 0 }
      else if a = 2 then
        { order0 with quantity := 2, price := 100, side := "SELL", typ := "limit",
                      orderID := 2, prevOrder := some 1, orderList := some 0 }
      else order0,
    lists := fun l =>
      if l = 0 then
        { hOrder := some 1, tOrder := some 2, len := 2, volume := 4, price := 100 }
      else list0,
    nextListAddr := 1,
    book :=
      { bids := emptyTree, time := 0, nextOrderID := 2,
        asks := { priceTree := [100], priceMap := [(100, 0)],
                  orderMap := [(1, 1), (2, 2)],
                  volume := 4, numOrders := 2, depth := 1 } } }

/-! ## C7 — doubly-linked-list shape of an OrderList -/
/-- Follow `NextOrder` pointers `n` times from an optional order address. -/
def follow (σ : State) : Option Nat → Nat → Option Nat
  | o, 0 => o
  | none, _ + 1 => none
  | some a, n + 1 => follow σ (σ.orders a).nextOrder n

/-- Collect the addresses reachable from an optional head by following
`NextOrder` at most `n` times. -/
def chainFrom (σ : State) : Option Nat → Nat → List Nat
  | _, 0 => []
  | none, _ + 1 => []
  | some a, n + 1 => a :: chainFrom σ (σ.orders a).nextOrder n

/-- The addresses currently linked into the list at `la`, read off the state
(`Len` bounds the walk).  Used to phrase the side conditions of legal list
operations: the code's callers only remove linked orders and only append
orders that are not already linked. -/
def chainOrders (σ : State) (la : Nat) : List Nat :=
  chainFrom σ (σ.lists la).hOrder (σ.lists la).len.toNat

/-- Pointer to the first element of a segment, or the continuation `nxt` when
the segment is empty. -/
def headPtr (nxt : Option Nat) : List Nat → Option Nat
  | [] => nxt
  | b :: _ => some b

/-- Pointer to the last element of a segment, or the predecessor `p` when the
segment is empty. -/
def endPtr (p : Option Nat) (L : List Nat) : Option Nat :=
  match L.getLast? with
  | none => p
  | some t => some t

/-- A well-linked doubly-linked segment: successive orders of `L` are chained
by `nextOrder` (the last one pointing at `nxt`) and mirrored by `prevOrder`
(the first one pointing back at `p`). -/
def seg (σ : State) : Option Nat → Option Nat → List Nat → Prop
  | _, _, [] => True
  | p, nxt, a :: rest =>
    (σ.orders a).prevOrder = p ∧
    (σ.orders a).nextOrder = headPtr nxt rest ∧
    seg σ (some a) nxt rest

/-- The list at `la` concretely represents the address list `L`. -/
def isDLL (σ : State) (la : Nat) (L : List Nat) : Prop :=
  (σ.lists la).len = (L.length : Int) ∧
  (σ.lists la).hOrder = L.head? ∧
  (σ.lists la).tOrder = L.getLast? ∧
  L.Nodup ∧
  seg σ none none L

/-- Shape invariant actually maintained by the code: either the list is
(counted as) empty, or it faithfully represents some non-empty address list.
After a `RemoveOrder` that empties the list the code returns early without
clearing `HOrder`/`TOrder`, which is why the empty case constrains only
`Len`. -/
def listShape (σ : State) (la : Nat) : Prop :=
  (σ.lists la).len = 0 ∨ ∃ L, L ≠ [] ∧ isDLL σ la L

/-- The head/tail/chain properties claimed for a non-empty list: head and
tail exist, the head has no predecessor, the tail no successor, and following
`NextOrder` from the head exactly `Len − 1` times reaches the tail. -/
def listHeadTailChain (σ : State) (la : Nat) : Prop :=
  (σ.lists la).len > 0 →
    ∃ h t, (σ.lists la).hOrder = some h ∧ (σ.lists la).tOrder = some t ∧
      (σ.orders h).prevOrder = none ∧ (σ.orders t).nextOrder = none ∧
      follow σ (some h) ((σ.lists la).len - 1).toNat = some t

/-- Legal histories of one order list: freshly created (`NewOrderList`), then
any sequence of `AppendOrder` of an unlinked order and `RemoveOrder` of a
linked order. -/
inductive ListReach (la : Nat) : State → Prop where
  | init (σ : State) (h1 : (σ.lists la).hOrder = none)
      (h2 : (σ.lists la).tOrder = none) (h3 : (σ.lists la).len = 0) :
      ListReach la σ
  | append (σ σ2 : State) (oa : Nat) (h : ListReach la σ)
      (hfresh : oa ∉ chainOrders σ la) (happ : appendOrder σ la oa = some σ2) :
      ListReach la σ2
  | remove (σ : State) (oa : Nat) (h : ListReach la σ)
      (hmem : oa ∈ chainOrders σ la) :
      ListReach la (removeOrder σ la oa)

/-- State after appending order 1 to the fresh list 0 of the empty book. -/
def w7a : State := (appendOrder emptyState 0 1).getD emptyState

/-- State after further appending order 2. -/
def w7b : State := (appendOrder w7a 0 2).getD emptyState

/-- State after removing order 1 from the two-element list. -/
def w7c : State := removeOrder w7b 0 1

/-- A book with a single incoming limit BUY quote (quantity 5, price 100) at
heap address 1, used as the C3 witness input. -/
def sampleLimitBuy : State :=
  { emptyState with orders := fun a =>
      if a = 1 then
        { order0 with quantity := 5, price := 100, side := "BUY", typ := "limit" }
      else order0 }

/-- The run of the C3 witness. -/
def c3res : State × List Trade × Option Nat :=
  (processOrder sampleLimitBuy 1 7 4).getD (emptyState, [], none)

/-- A book with a single incoming market SELL quote (quantity 3) at heap
address 1, used as the C4 witness input. -/
def sampleMarketSell : State :=
  { emptyState with orders := fun a =>
      if a = 1 then
        { order0 with quantity := 3, side := "SELL", typ := "market" }
      else order0 }

/-- The run of the C4 witness. -/
def c4res : State × List Trade × Option Nat :=
  (processOrder sampleMarketSell 1 7 4).getD (emptyState, [], none)

/-! ## C8 — price fields are never rewritten by matching -/
/-- No operation of the matching path ever rewrites an order's `Price` field;
`priceQuiet σ σ2` records that fact between two states. -/
def priceQuiet (σ σ2 : State) : Prop :=
  ∀ a, (σ2.orders a).price = (σ.orders a).price

/-- A book with two incoming limit quotes used for C8: a SELL at price 200
(address 1) and a BUY at price 100 (address 2), each of quantity 5. -/
def sampleC8 : State :=
  { emptyState with orders := fun a =>
      if a = 1 then
        { order0 with quantity := 5, price := 200, side := "SELL", typ := "limit" }
      else if a = 2 then
        { order0 with quantity := 5, price := 100, side := "BUY", typ := "limit" }
      else order0 }

/-- The book after the SELL at 200 has rested. -/
def c8mid : State := ((processLimitOrder sampleC8 1 4).getD (emptyState, [], none)).1

/-- The run of the BUY at 100 against that book. -/
def c8res : State × List Trade × Option Nat :=
  (processLimitOrder c8mid 2 4).getD (emptyState, [], none)

/-! # Theorems -/

@[simp] theorem getTree_modTree (σ : State) (b : Bool) (f : OrderTree → OrderTree) :
    getTree (modTree σ b f) b = f (getTree σ b) := by
  cases b <;> simp [getTree, modTree]

@[simp] theorem getTree_modTree_ne (σ : State) (b c : Bool) (f : OrderTree → OrderTree)
    (h : b ≠ c) : getTree (modTree σ b f) c = getTree σ c := by
  cases b <;> cases c <;> simp_all [getTree, modTree]

@[simp] theorem orders_modTree (σ : State) (b : Bool) (f : OrderTree → OrderTree) :
    (modTree σ b f).orders = σ.orders := by
  cases b <;> simp [modTree]

@[simp] theorem lists_modTree (σ : State) (b : Bool) (f : OrderTree → OrderTree) :
    (modTree σ b f).lists = σ.lists := by
  cases b <;> simp [modTree]

@[simp] theorem book_time_modTree (σ : State) (b : Bool) (f : OrderTree → OrderTree) :
    (modTree σ b f).book.time = σ.book.time := by
  cases b <;> simp [modTree]

@[simp] theorem book_nextOrderID_modTree (σ : State) (b : Bool) (f : OrderTree → OrderTree) :
    (modTree σ b f).book.nextOrderID = σ.book.nextOrderID := by
  cases b <;> simp [modTree]

@[simp] theorem lists_updOrder (σ : State) (a : Nat) (f : Order → Order) :
    (updOrder σ a f).lists = σ.lists := rfl

@[simp] theorem book_updOrder (σ : State) (a : Nat) (f : Order → Order) :
    (updOrder σ a f).book = σ.book := rfl

@[simp] theorem orders_updList (σ : State) (a : Nat) (f : OrderList → OrderList) :
    (updList σ a f).orders = σ.orders := rfl

@[simp] theorem book_updList (σ : State) (a : Nat) (f : OrderList → OrderList) :
    (updList σ a f).book = σ.book := rfl

@[simp] theorem orders_updOrder_same (σ : State) (a : Nat) (f : Order → Order) :
    (updOrder σ a f).orders a = f (σ.orders a) := by
  simp [updOrder]

@[simp] theorem orders_updOrder_ne (σ : State) (a b : Nat) (f : Order → Order)
    (h : b ≠ a) : (updOrder σ a f).orders b = σ.orders b := by
  simp [updOrder, h]

@[simp] theorem lists_updList_same (σ : State) (a : Nat) (f : OrderList → OrderList) :
    (updList σ a f).lists a = f (σ.lists a) := by
  simp [updList]

@[simp] theorem lists_updList_ne (σ : State) (a b : Nat) (f : OrderList → OrderList)
    (h : b ≠ a) : (updList σ a f).lists b = σ.lists b := by
  simp [updList, h]

@[simp] theorem orders_updateTime (σ : State) (now : Nat) :
    (updateTime σ now).orders = σ.orders := rfl

@[simp] theorem lists_updateTime (σ : State) (now : Nat) :
    (updateTime σ now).lists = σ.lists := rfl

@[simp] theorem getTree_updateTime (σ : State) (now : Nat) (b : Bool) :
    getTree (updateTime σ now) b = getTree σ b := by
  cases b <;> rfl

@[simp] theorem orderExist_updateTime (σ : State) (now : Nat) (b : Bool) (i : Nat) :
    orderExist (updateTime σ now) b i = orderExist σ b i := by
  simp [orderExist]

@[simp] theorem orders_incNextOrderID (σ : State) :
    (incNextOrderID σ).orders = σ.orders := rfl

@[simp] theorem lists_incNextOrderID (σ : State) :
    (incNextOrderID σ).lists = σ.lists := rfl

@[simp] theorem getTree_incNextOrderID (σ : State) (b : Bool) :
    getTree (incNextOrderID σ) b = getTree σ b := by
  cases b <;> rfl

/-! ## Frame and shrink lemmas for the consumption loops (C3, C4, C8) -/
theorem optionBind_some {α β : Type} (a : α) (f : α → Option β) :
    ((some a : Option α) >>= f) = f a := rfl

theorem optionBind_none {α β : Type} (f : α → Option β) :
    ((none : Option α) >>= f) = none := rfl

theorem keySub_refl (m : List (Nat × Nat)) : keySub m m := fun _ h => h

theorem keySub_trans {m1 m2 m3 : List (Nat × Nat)}
    (h1 : keySub m1 m2) (h2 : keySub m2 m3) : keySub m1 m3 :=
  fun k hk => h2 k (h1 k hk)

theorem lookupA_eraseA_isSome {α β : Type} [DecidableEq α]
    (m : List (α × β)) (k0 k : α) :
    (lookupA (eraseA m k0) k).isSome = true → (lookupA m k).isSome = true := by
  induction m with
  | nil => intro h; exact h
  | cons kv rest ih =>
    obtain ⟨k2, v2⟩ := kv
    intro h
    by_cases h20 : k2 = k0
    · rw [eraseA, if_pos h20] at h
      by_cases h2k : k2 = k
      · simp [lookupA, h2k]
      · simpa [lookupA, h2k] using h
    · rw [eraseA, if_neg h20] at h
      by_cases h2k : k2 = k
      · simp [lookupA, h2k]
      · rw [lookupA, if_neg h2k] at h ⊢
        exact ih h

theorem keySub_eraseA (m : List (Nat × Nat)) (k0 : Nat) : keySub (eraseA m k0) m :=
  fun k hk => lookupA_eraseA_isSome m k0 k hk

theorem bool_not_ne (b : Bool) : b ≠ !b := by cases b <;> decide

@[simp] theorem book_removeOrder (σ : State) (la oa : Nat) :
    (removeOrder σ la oa).book = σ.book := by
  simp only [removeOrder]
  split
  · rfl
  · split <;> rfl

@[simp] theorem getTree_removeOrder (σ : State) (la oa : Nat) (c : Bool) :
    getTree (removeOrder σ la oa) c = getTree σ c := by
  unfold getTree
  rw [book_removeOrder]

theorem book_moveToTail (σ : State) (la oa : Nat) (σ2 : State)
    (h : moveToTail σ la oa = some σ2) : σ2.book = σ.book := by
  simp only [moveToTail] at h
  repeat' split at h
  all_goals cases h
  all_goals rfl

theorem book_updateQuantity (σ : State) (oa : Nat) (q : Int) (ts : Nat) (σ2 : State)
    (h : updateQuantity σ oa q ts = some σ2) : σ2.book = σ.book := by
  simp only [updateQuantity] at h
  split at h
  · cases h
  · rename_i la hla
    split at h
    · cases hm : moveToTail σ la oa with
      | none => rw [hm] at h; cases h
      | some σ1 =>
        rw [hm, optionBind_some] at h
        cases h
        exact book_moveToTail σ la oa σ1 hm
    · rw [optionBind_some] at h
      cases h
      rfl

theorem getTree_of_book_eq {σ σ2 : State} (h : σ2.book = σ.book) (c : Bool) :
    getTree σ2 c = getTree σ c := by
  unfold getTree
  rw [h]

theorem consumeFrame_of_book_eq {σ σ2 : State} (b : Bool) (h : σ2.book = σ.book) :
    consumeFrame b σ σ2 := by
  refine ⟨by rw [h], by rw [h], getTree_of_book_eq h _, ?_, ?_⟩
  · rw [getTree_of_book_eq h]
  · rw [getTree_of_book_eq h]
    exact keySub_refl _

theorem consumeFrame_refl (b : Bool) (σ : State) : consumeFrame b σ σ :=
  consumeFrame_of_book_eq b rfl

theorem consumeFrame_trans {b : Bool} {σ1 σ2 σ3 : State}
    (h1 : consumeFrame b σ1 σ2) (h2 : consumeFrame b σ2 σ3) :
    consumeFrame b σ1 σ3 := by
  obtain ⟨a1, a2, a3, a4, a5⟩ := h1
  obtain ⟨c1, c2, c3, c4, c5⟩ := h2
  exact ⟨c1.trans a1, c2.trans a2, c3.trans a3, c4.trans a4, keySub_trans c5 a5⟩

theorem consumeFrame_removeOrderById (σ : State) (b : Bool) (id : Nat) (σ2 : State)
    (h : removeOrderById σ b id = some σ2) : consumeFrame b σ σ2 := by
  simp only [removeOrderById] at h
  split at h
  · cases h
  · rename_i oa hoa
    split at h
    · cases h
    · rename_i la hla
      cases h
      refine ⟨?_, ?_, ?_, ?_, ?_⟩
      · simp [removePrice]
        split <;> simp
      · simp [removePrice]
        split <;> simp
      · rw [getTree_modTree_ne _ _ _ _ (bool_not_ne b)]
        split
        · rw [removePrice, getTree_modTree_ne _ _ _ _ (bool_not_ne b),
            getTree_removeOrder, getTree_modTree_ne _ _ _ _ (bool_not_ne b),
            getTree_modTree_ne _ _ _ _ (bool_not_ne b)]
        · rw [getTree_removeOrder, getTree_modTree_ne _ _ _ _ (bool_not_ne b),
            getTree_modTree_ne _ _ _ _ (bool_not_ne b)]
      · rw [getTree_modTree]
        split
        · rw [removePrice, getTree_modTree]
          simp only [getTree_removeOrder, getTree_modTree]
          exact List.Sublist.trans (List.erase_sublist _ _) (List.Sublist.refl _)
        · simp only [getTree_removeOrder, getTree_modTree]
          exact List.Sublist.refl _
      · rw [getTree_modTree]
        have : ∀ σ4 : State, (getTree σ4 b).orderMap = (getTree σ b).orderMap →
            keySub (eraseA (getTree σ4 b).orderMap id) (getTree σ b).orderMap := by
          intro σ4 h4
          rw [h4]
          exact keySub_eraseA _ _
        split
        · refine this _ ?_
          rw [removePrice, getTree_modTree]
          simp only [getTree_removeOrder, getTree_modTree]
        · refine this _ ?_
          simp only [getTree_removeOrder, getTree_modTree]

theorem consumeFrame_updateQuantity (σ : State) (oa : Nat) (q : Int) (ts : Nat)
    (b : Bool) (σ2 : State) (h : updateQuantity σ oa q ts = some σ2) :
    consumeFrame b σ σ2 :=
  consumeFrame_of_book_eq b (book_updateQuantity σ oa q ts σ2 h)

/-- `ProcessOrderList` only updates or removes orders of the opposing side:
clock, id counter and the own-side tree are untouched, and the opposing
side's price set and order-id set only shrink. -/
theorem consumeFrame_processOrderList (side : String) (la : Nat) :
    ∀ (fuel : Nat) (σ : State) (q : Int) (σ2 : State) (q2 : Int) (ts : List Trade),
      processOrderList side la fuel σ q = some (σ2, q2, ts) →
      consumeFrame (side == Bid) σ σ2 := by
  intro fuel
  induction fuel with
  | zero =>
    intro σ q σ2 q2 ts h
    simp only [processOrderList] at h
    split at h
    · cases h
    · cases h
      exact consumeFrame_refl _ _
  | succ fuel ih =>
    intro σ q σ2 q2 ts h
    simp only [processOrderList] at h
    split at h
    · split at h
      · cases h
      · rename_i hv hh
        split at h
        · cases hupd : updateQuantity σ hv ((σ.orders hv).quantity - q)
              ((σ.orders hv).updatedAt) with
          | none => rw [hupd] at h; cases h
          | some σ1 =>
            rw [hupd, optionBind_some] at h
            cases hrec : processOrderList side la fuel σ1 0 with
            | none => rw [hrec] at h; cases h
            | some r =>
              obtain ⟨σr, qr, tr⟩ := r
              rw [hrec, optionBind_some] at h
              cases h
              exact consumeFrame_trans
                (consumeFrame_updateQuantity σ _ _ _ _ σ1 hupd)
                (ih σ1 0 σr qr tr hrec)
        · split at h
          · cases hrem : removeOrderById σ (side == Bid) ((σ.orders hv).orderID) with
            | none => rw [hrem] at h; cases h
            | some σ1 =>
              rw [hrem, optionBind_some] at h
              cases hrec : processOrderList side la fuel σ1 0 with
              | none => rw [hrec] at h; cases h
              | some r =>
                obtain ⟨σr, qr, tr⟩ := r
                rw [hrec, optionBind_some] at h
                cases h
                exact consumeFrame_trans
                  (consumeFrame_removeOrderById σ (side == Bid) _ σ1 hrem)
                  (ih σ1 0 σr qr tr hrec)
          · cases hrem : removeOrderById σ (side == Bid) ((σ.orders hv).orderID) with
            | none => rw [hrem] at h; cases h
            | some σ1 =>
              rw [hrem, optionBind_some] at h
              cases hrec : processOrderList side la fuel σ1 q with
              | none => rw [hrec] at h; cases h
              | some r =>
                obtain ⟨σr, qr, tr⟩ := r
                rw [hrec, optionBind_some] at h
                cases h
                exact consumeFrame_trans
                  (consumeFrame_removeOrderById σ (side == Bid) _ σ1 hrem)
                  (ih σ1 _ σr qr tr hrec)
    · cases h
      exact consumeFrame_refl _ _

theorem ask_beq_bid : (Ask == Bid) = false := by decide

theorem bid_beq_bid : (Bid == Bid) = true := by decide

theorem consumeFrame_limitBidLoop (price : Int) :
    ∀ (fuel : Nat) (σ : State) (q : Int) (σ2 : State) (q2 : Int) (ts : List Trade),
      limitBidLoop price fuel σ q = some (σ2, q2, ts) → consumeFrame false σ σ2 := by
  intro fuel
  induction fuel with
  | zero =>
    intro σ q σ2 q2 ts h
    simp only [limitBidLoop] at h
    split at h
    · cases h
    · cases h
      exact consumeFrame_refl _ _
  | succ fuel ih =>
    intro σ q σ2 q2 ts h
    simp only [limitBidLoop] at h
    split at h
    · split at h
      · cases h
      · rename_i la hla
        cases hp : processOrderList Ask la fuel σ q with
        | none => rw [hp] at h; cases h
        | some r =>
          obtain ⟨σ1, q1, ts1⟩ := r
          rw [hp, optionBind_some] at h
          cases hr : limitBidLoop price fuel σ1 q1 with
          | none => rw [hr] at h; cases h
          | some r2 =>
            obtain ⟨σr, qr, tsr⟩ := r2
            rw [hr, optionBind_some] at h
            cases h
            have h1 := consumeFrame_processOrderList Ask la fuel σ q σ1 q1 ts1 hp
            rw [ask_beq_bid] at h1
            exact consumeFrame_trans h1 (ih σ1 q1 σr qr tsr hr)
    · cases h
      exact consumeFrame_refl _ _

theorem consumeFrame_limitAskLoop (price : Int) :
    ∀ (fuel : Nat) (σ : State) (q : Int) (σ2 : State) (q2 : Int) (ts : List Trade),
      limitAskLoop price fuel σ q = some (σ2, q2, ts) → consumeFrame true σ σ2 := by
  intro fuel
  induction fuel with
  | zero =>
    intro σ q σ2 q2 ts h
    simp only [limitAskLoop] at h
    split at h
    · cases h
    · cases h
      exact consumeFrame_refl _ _
  | succ fuel ih =>
    intro σ q σ2 q2 ts h
    simp only [limitAskLoop] at h
    split at h
    · split at h
      · cases h
      · rename_i la hla
        cases hp : processOrderList Bid la fuel σ q with
        | none => rw [hp] at h; cases h
        | some r =>
          obtain ⟨σ1, q1, ts1⟩ := r
          rw [hp, optionBind_some] at h
          cases hr : limitAskLoop price fuel σ1 q1 with
          | none => rw [hr] at h; cases h
          | some r2 =>
            obtain ⟨σr, qr, tsr⟩ := r2
            rw [hr, optionBind_some] at h
            cases h
            have h1 := consumeFrame_processOrderList Bid la fuel σ q σ1 q1 ts1 hp
            rw [bid_beq_bid] at h1
            exact consumeFrame_trans h1 (ih σ1 q1 σr qr tsr hr)
    · cases h
      exact consumeFrame_refl _ _

theorem consumeFrame_marketBidLoop :
    ∀ (fuel : Nat) (σ : State) (q : Int) (σ2 : State) (q2 : Int) (ts : List Trade),
      marketBidLoop fuel σ q = some (σ2, q2, ts) → consumeFrame false σ σ2 := by
  intro fuel
  induction fuel with
  | zero =>
    intro σ q σ2 q2 ts h
    simp only [marketBidLoop] at h
    split at h
    · cases h
    · cases h
      exact consumeFrame_refl _ _
  | succ fuel ih =>
    intro σ q σ2 q2 ts h
    simp only [marketBidLoop] at h
    split at h
    · split at h
      · cases h
      · rename_i la hla
        cases hp : processOrderList Ask la fuel σ q with
        | none => rw [hp] at h; cases h
        | some r =>
          obtain ⟨σ1, q1, ts1⟩ := r
          rw [hp, optionBind_some] at h
          cases hr : marketBidLoop fuel σ1 q1 with
          | none => rw [hr] at h; cases h
          | some r2 =>
            obtain ⟨σr, qr, tsr⟩ := r2
            rw [hr, optionBind_some] at h
            cases h
            have h1 := consumeFrame_processOrderList Ask la fuel σ q σ1 q1 ts1 hp
            rw [ask_beq_bid] at h1
            exact consumeFrame_trans h1 (ih σ1 q1 σr qr tsr hr)
    · cases h
      exact consumeFrame_refl _ _

theorem consumeFrame_marketAskLoop :
    ∀ (fuel : Nat) (σ : State) (q : Int) (σ2 : State) (q2 : Int) (ts : List Trade),
      marketAskLoop fuel σ q = some (σ2, q2, ts) → consumeFrame true σ σ2 := by
  intro fuel
  induction fuel with
  | zero =>
    intro σ q σ2 q2 ts h
    simp only [marketAskLoop] at h
    split at h
    · cases h
    · cases h
      exact consumeFrame_refl _ _
  | succ fuel ih =>
    intro σ q σ2 q2 ts h
    simp only [marketAskLoop] at h
    split at h
    · split at h
      · cases h
      · rename_i la hla
        cases hp : processOrderList Bid la fuel σ q with
        | none => rw [hp] at h; cases h
        | some r =>
          obtain ⟨σ1, q1, ts1⟩ := r
          rw [hp, optionBind_some] at h
          cases hr : marketAskLoop fuel σ1 q1 with
          | none => rw [hr] at h; cases h
          | some r2 =>
            obtain ⟨σr, qr, tsr⟩ := r2
            rw [hr, optionBind_some] at h
            cases h
            have h1 := consumeFrame_processOrderList Bid la fuel σ q σ1 q1 ts1 hp
            rw [bid_beq_bid] at h1
            exact consumeFrame_trans h1 (ih σ1 q1 σr qr tsr hr)
    · cases h
      exact consumeFrame_refl _ _

/-- The BUY limit loop stops only because quantity ran out, the ask tree
emptied, or the limit price fell below the current best ask. -/
theorem limitBidLoop_exit (price : Int) :
    ∀ (fuel : Nat) (σ : State) (q : Int) (σ2 : State) (q2 : Int) (ts : List Trade),
      limitBidLoop price fuel σ q = some (σ2, q2, ts) →
      ¬ (q2 > 0 ∧ treeLength σ2 false > 0 ∧ price ≥ minPrice σ2 false) := by
  intro fuel
  induction fuel with
  | zero =>
    intro σ q σ2 q2 ts h
    simp only [limitBidLoop] at h
    split at h
    · cases h
    · rename_i hng
      cases h
      exact hng
  | succ fuel ih =>
    intro σ q σ2 q2 ts h
    simp only [limitBidLoop] at h
    split at h
    · split at h
      · cases h
      · rename_i la hla
        cases hp : processOrderList Ask la fuel σ q with
        | none => rw [hp] at h; cases h
        | some r =>
          obtain ⟨σ1, q1, ts1⟩ := r
          rw [hp, optionBind_some] at h
          cases hr : limitBidLoop price fuel σ1 q1 with
          | none => rw [hr] at h; cases h
          | some r2 =>
            obtain ⟨σr, qr, tsr⟩ := r2
            rw [hr, optionBind_some] at h
            cases h
            exact ih σ1 q1 σr qr tsr hr
    · rename_i hng
      cases h
      exact hng

/-- The SELL limit loop stops only because quantity ran out, the bid tree
emptied, or the limit price rose above the current best bid. -/
theorem limitAskLoop_exit (price : Int) :
    ∀ (fuel : Nat) (σ : State) (q : Int) (σ2 : State) (q2 : Int) (ts : List Trade),
      limitAskLoop price fuel σ q = some (σ2, q2, ts) →
      ¬ (q2 > 0 ∧ treeLength σ2 true > 0 ∧ price ≤ maxPrice σ2 true) := by
  intro fuel
  induction fuel with
  | zero =>
    intro σ q σ2 q2 ts h
    simp only [limitAskLoop] at h
    split at h
    · cases h
    · rename_i hng
      cases h
      exact hng
  | succ fuel ih =>
    intro σ q σ2 q2 ts h
    simp only [limitAskLoop] at h
    split at h
    · split at h
      · cases h
      · rename_i la hla
        cases hp : processOrderList Bid la fuel σ q with
        | none => rw [hp] at h; cases h
        | some r =>
          obtain ⟨σ1, q1, ts1⟩ := r
          rw [hp, optionBind_some] at h
          cases hr : limitAskLoop price fuel σ1 q1 with
          | none => rw [hr] at h; cases h
          | some r2 =>
            obtain ⟨σr, qr, tsr⟩ := r2
            rw [hr, optionBind_some] at h
            cases h
            exact ih σ1 q1 σr qr tsr hr
    · rename_i hng
      cases h
      exact hng

theorem linkOnly_refl (σ : State) : linkOnly σ σ := fun _ => ⟨rfl, rfl⟩

theorem linkOnly_trans {σ1 σ2 σ3 : State}
    (h1 : linkOnly σ1 σ2) (h2 : linkOnly σ2 σ3) : linkOnly σ1 σ3 :=
  fun a => ⟨(h2 a).1.trans (h1 a).1, (h2 a).2.trans (h1 a).2⟩

theorem linkOnly_updOrder (σ : State) (x : Nat) (f : Order → Order)
    (hf : ∀ o, (f o).orderID = o.orderID ∧ (f o).quantity = o.quantity) :
    linkOnly σ (updOrder σ x f) := by
  intro a
  by_cases hax : a = x
  · subst hax
    rw [orders_updOrder_same]
    exact hf (σ.orders a)
  · rw [orders_updOrder_ne _ _ _ _ hax]
    exact ⟨rfl, rfl⟩

theorem linkOnly_of_orders_eq {σ σ2 : State} (h : σ2.orders = σ.orders) :
    linkOnly σ σ2 := fun a => by rw [h]; exact ⟨rfl, rfl⟩

@[simp] theorem orders_createPrice (σ : State) (b : Bool) (p : Int) :
    (createPrice σ b p).orders = σ.orders := by
  simp [createPrice]

@[simp] theorem orders_removePrice (σ : State) (b : Bool) (p : Int) :
    (removePrice σ b p).orders = σ.orders := by
  simp [removePrice]

theorem linkOnly_peel_updList (σ σ1 : State) (x : Nat) (f : OrderList → OrderList)
    (h : linkOnly σ σ1) : linkOnly σ (updList σ1 x f) :=
  fun a => by rw [orders_updList]; exact h a

theorem linkOnly_peel_modTree (σ σ1 : State) (b : Bool) (f : OrderTree → OrderTree)
    (h : linkOnly σ σ1) : linkOnly σ (modTree σ1 b f) :=
  fun a => by rw [orders_modTree]; exact h a

theorem linkOnly_peel_removePrice (σ σ1 : State) (b : Bool) (p : Int)
    (h : linkOnly σ σ1) : linkOnly σ (removePrice σ1 b p) :=
  fun a => by rw [orders_removePrice]; exact h a

theorem linkOnly_peel_createPrice (σ σ1 : State) (b : Bool) (p : Int)
    (h : linkOnly σ σ1) : linkOnly σ (createPrice σ1 b p) :=
  fun a => by rw [orders_createPrice]; exact h a

theorem linkOnly_peel_updOrder (σ σ1 : State) (x : Nat) (f : Order → Order)
    (hf : ∀ o, (f o).orderID = o.orderID ∧ (f o).quantity = o.quantity)
    (h : linkOnly σ σ1) : linkOnly σ (updOrder σ1 x f) :=
  linkOnly_trans h (linkOnly_updOrder σ1 x f hf)

theorem linkOnly_removeOrder (σ : State) (la oa : Nat) :
    linkOnly σ (removeOrder σ la oa) := by
  simp only [removeOrder]
  split
  · exact linkOnly_peel_updList _ _ _ _ (linkOnly_refl σ)
  · split
    · exact linkOnly_peel_updOrder _ _ _ _ (fun o => ⟨rfl, rfl⟩)
        (linkOnly_peel_updOrder _ _ _ _ (fun o => ⟨rfl, rfl⟩)
          (linkOnly_peel_updList _ _ _ _ (linkOnly_refl σ)))
    · exact linkOnly_peel_updList _ _ _ _
        (linkOnly_peel_updOrder _ _ _ _ (fun o => ⟨rfl, rfl⟩)
          (linkOnly_peel_updList _ _ _ _ (linkOnly_refl σ)))
    · exact linkOnly_peel_updList _ _ _ _
        (linkOnly_peel_updOrder _ _ _ _ (fun o => ⟨rfl, rfl⟩)
          (linkOnly_peel_updList _ _ _ _ (linkOnly_refl σ)))
    · exact linkOnly_peel_updList _ _ _ _ (linkOnly_refl σ)

theorem linkOnly_peel_removeOrder (σ σ1 : State) (la oa : Nat)
    (h : linkOnly σ σ1) : linkOnly σ (removeOrder σ1 la oa) :=
  linkOnly_trans h (linkOnly_removeOrder σ1 la oa)

theorem linkOnly_appendOrder (σ : State) (la oa : Nat) (σ2 : State)
    (h : appendOrder σ la oa = some σ2) : linkOnly σ σ2 := by
  simp only [appendOrder] at h
  split at h
  · cases h
    exact linkOnly_peel_updList _ _ _ _
      (linkOnly_peel_updOrder _ _ _ _ (fun o => ⟨rfl, rfl⟩) (linkOnly_refl σ))
  · split at h
    · cases h
    · cases h
      exact linkOnly_peel_updList _ _ _ _
        (linkOnly_peel_updOrder _ _ _ _ (fun o => ⟨rfl, rfl⟩)
          (linkOnly_peel_updOrder _ _ _ _ (fun o => ⟨rfl, rfl⟩) (linkOnly_refl σ)))

theorem linkOnly_removeOrderById (σ : State) (b : Bool) (id : Nat) (σ2 : State)
    (h : removeOrderById σ b id = some σ2) : linkOnly σ σ2 := by
  simp only [removeOrderById] at h
  split at h
  · cases h
  · rename_i oa hoa
    split at h
    · cases h
    · rename_i la hla
      cases h
      refine linkOnly_peel_modTree _ _ _ _ ?_
      split
      · exact linkOnly_peel_removePrice _ _ _ _
          (linkOnly_peel_removeOrder _ _ _ _
            (linkOnly_peel_modTree _ _ _ _
              (linkOnly_peel_modTree _ _ _ _ (linkOnly_refl σ))))
      · exact linkOnly_peel_removeOrder _ _ _ _
          (linkOnly_peel_modTree _ _ _ _
            (linkOnly_peel_modTree _ _ _ _ (linkOnly_refl σ)))

theorem linkOnly_insertOrder (σ : State) (b : Bool) (oa : Nat) (σ2 : State)
    (h : insertOrder σ b oa = some σ2) : linkOnly σ σ2 := by
  have hbb : ∀ (x : Option State) (f : State → Option State),
      (x >>= f) = x.bind f := fun _ _ => rfl
  simp only [insertOrder] at h
  split at h
  · cases h1 : removeOrderById σ b ((σ.orders oa).orderID) with
    | none => rw [h1] at h; cases h
    | some σ1 =>
      rw [h1, optionBind_some] at h
      have l1 : linkOnly σ σ1 := linkOnly_removeOrderById σ b _ σ1 h1
      split at h
      · cases h
      · rename_i la hla
        rw [hbb, Option.bind_eq_some] at h
        obtain ⟨σ5, h5, h⟩ := h
        cases h
        refine linkOnly_trans l1 ?_
        refine linkOnly_peel_modTree _ _ _ _ (linkOnly_peel_modTree _ _ _ _ ?_)
        refine linkOnly_trans ?_ (linkOnly_appendOrder _ la oa σ5 h5)
        refine linkOnly_peel_updOrder _ _ _ _ (fun o => ⟨rfl, rfl⟩) ?_
        split
        · exact linkOnly_peel_modTree _ _ _ _ (linkOnly_refl σ1)
        · exact linkOnly_peel_createPrice _ _ _ _
            (linkOnly_peel_modTree _ _ _ _ (linkOnly_refl σ1))
  · rw [optionBind_some] at h
    split at h
    · cases h
    · rename_i la hla
      rw [hbb, Option.bind_eq_some] at h
      obtain ⟨σ5, h5, h⟩ := h
      cases h
      refine linkOnly_peel_modTree _ _ _ _ (linkOnly_peel_modTree _ _ _ _ ?_)
      refine linkOnly_trans ?_ (linkOnly_appendOrder _ la oa σ5 h5)
      refine linkOnly_peel_updOrder _ _ _ _ (fun o => ⟨rfl, rfl⟩) ?_
      split
      · exact linkOnly_peel_modTree _ _ _ _ (linkOnly_refl σ)
      · exact linkOnly_peel_createPrice _ _ _ _
          (linkOnly_peel_modTree _ _ _ _ (linkOnly_refl σ))

/-! ## C9 — CancelOrder of an absent order id -/
/-- C9.  For every order whose id is absent from the tree of its side,
`CancelOrder` returns without error and leaves everything except the book's
`Time` unchanged: the result is exactly the input state with `Time` set to
the current timestamp.  (The whole-state equality covers the claim's frame:
both trees, their maps, depths, volumes and counters are untouched.) -/
theorem cancelOrder_absent_only_time (σ : State) (qa : Nat) (now : Nat)
    (habs : orderExist σ ((σ.orders qa).side == Bid) ((σ.orders qa).orderID) = false) :
    cancelOrder σ qa now = some (updateTime σ now) := by
  unfold cancelOrder
  cases hb : (σ.orders qa).side == Bid with
  | true =>
    rw [hb] at habs
    have hb2 : ((updateTime σ now).orders qa).side == Bid := by
      simpa using hb
    simp only [orders_updateTime, hb, if_true, orderExist_updateTime, habs,
      Bool.false_eq_true, if_false]
  | false =>
    rw [hb] at habs
    simp only [orders_updateTime, hb, Bool.false_eq_true, if_false,
      orderExist_updateTime, habs]

/-- C9 witness: cancelling id 9 (absent) on the sample book only stamps the
time. -/
theorem cancelOrder_absent_only_time_witness :
    cancelOrder
      { sampleBid100 with orders := fun a =>
          if a = 5 then { order0 with orderID := 9, side := "BUY" }
          else sampleBid100.orders a } 5 42
      = some (updateTime
          { sampleBid100 with orders := fun a =>
              if a = 5 then { order0 with orderID := 9, side := "BUY" }
              else sampleBid100.orders a } 42) :=
  cancelOrder_absent_only_time _ 5 42 (by decide)

/-! ## C10 — VolumeAtPrice -/
/-- C10.  For every side and price, `VolumeAtPrice` returns the volume of the
side's list at that price when one exists, and zero otherwise; it is a total
function (never nil, never fails).  Any side other than `BUY` reads the ask
tree, exactly as the source's `else` branch does. -/
theorem volumeAtPrice_spec (σ : State) (side : String) (price : Int) :
    (∀ la, lookupA (getTree σ (side == Bid)).priceMap price = some la →
      volumeAtPrice σ side price = (σ.lists la).volume) ∧
    (lookupA (getTree σ (side == Bid)).priceMap price = none →
      volumeAtPrice σ side price = 0) := by
  unfold volumeAtPrice priceExist
  cases hb : side == Bid with
  | true =>
    refine ⟨fun la h1 => ?_, fun h1 => ?_⟩ <;>
      simp only [hb, if_true] <;> simp [h1]
  | false =>
    refine ⟨fun la h1 => ?_, fun h1 => ?_⟩ <;>
      simp only [hb, Bool.false_eq_true, if_false] <;> simp [h1]

/-- C10 witness: on the sample book, the BUY side volume at price 100 is 5
and at the absent price 7 it is 0. -/
theorem volumeAtPrice_spec_witness :
    volumeAtPrice sampleBid100 "BUY" 100 = 5 ∧ volumeAtPrice sampleBid100 "BUY" 7 = 0 :=
  ⟨(volumeAtPrice_spec sampleBid100 "BUY" 100).1 0 (by decide),
   (volumeAtPrice_spec sampleBid100 "BUY" 7).2 (by decide)⟩

/-! ## C1 / C2 — one iteration of ProcessOrderList -/
/-- `UpdateQuantity` when the move-to-tail condition is false: only the list
volume, the timestamp and the quantity change. -/
theorem updateQuantity_no_move (σ : State) (oa la : Nat) (newQ : Int) (ts : Nat)
    (hbr : (σ.orders oa).orderList = some la)
    (hle : ¬ (newQ > (σ.orders oa).quantity ∧ (σ.lists la).tOrder ≠ some oa)) :
    updateQuantity σ oa newQ ts =
      some (updOrder (updList σ la fun l =>
        { l with volume := l.volume - ((σ.orders oa).quantity - newQ) }) oa
        fun x => { x with updatedAt := ts, quantity := newQ }) := by
  unfold updateQuantity
  simp only [hbr, if_neg hle, optionBind_some]

/-- `ProcessOrderList` with no quantity left returns at once (the loop guard
fails whatever the fuel). -/
theorem processOrderList_done (side : String) (la : Nat) (fuel : Nat) (σ : State)
    (q : Int) (hq : ¬ q > 0) :
    processOrderList side la fuel σ q = some (σ, q, []) := by
  cases fuel <;> simp [processOrderList, hq]

/-- One iteration of `ProcessOrderList` on a non-empty opposing list with
remaining quantity `q > 0`, by the three-way comparison of `q` against the
head's quantity: a partial fill updates the head in place and finishes with
remaining `0`; an exact fill removes the head by id and finishes with
remaining `0`; when `q` exceeds the head's quantity the head is removed, a
trade of the head's quantity is emitted, and the loop continues with `q`
*unchanged* (the source never decrements `quantityToTrade` in that branch,
orderbook.go:201–208). -/
theorem processOrderList_head_step
    (side : String) (la h : Nat) (σ : State) (q : Int) (fuel : Nat)
    (hlen : (σ.lists la).len > 0) (hq : q > 0)
    (hh : (σ.lists la).hOrder = some h)
    (hbr : (σ.orders h).orderList = some la) :
    (q < (σ.orders h).quantity →
      processOrderList side la (fuel + 1) σ q =
        some (updOrder (updList σ la fun l =>
            { l with volume := l.volume -
                ((σ.orders h).quantity - ((σ.orders h).quantity - q)) }) h
            fun x => { x with updatedAt := (σ.orders h).updatedAt,
                              quantity := (σ.orders h).quantity - q },
          0, [mkTrade σ (σ.orders h).price q])) ∧
    (q = (σ.orders h).quantity →
      processOrderList side la (fuel + 1) σ q =
        (removeOrderById σ (side == Bid) (σ.orders h).orderID).map
          (fun σ1 => (σ1, 0, [mkTrade σ1 (σ.orders h).price q]))) ∧
    ((σ.orders h).quantity < q →
      processOrderList side la (fuel + 1) σ q =
        (removeOrderById σ (side == Bid) (σ.orders h).orderID).bind
          (fun σ1 =>
            (processOrderList side la fuel σ1 q).map
              (fun r => (r.1, r.2.1,
                mkTrade σ1 (σ.orders h).price (σ.orders h).quantity :: r.2.2)))) := by
  refine ⟨fun hlt => ?_, fun heq => ?_, fun hgt => ?_⟩
  · have hmove : ¬ ((σ.orders h).quantity - q > (σ.orders h).quantity ∧
        (σ.lists la).tOrder ≠ some h) := by
      rintro ⟨h1, -⟩
      omega
    simp only [processOrderList, if_pos (And.intro hlen hq), hh, if_pos hlt,
      updateQuantity_no_move σ h la ((σ.orders h).quantity - q)
        ((σ.orders h).updatedAt) hbr hmove, optionBind_some]
    rw [processOrderList_done side la fuel _ 0 (by omega)]
    simp only [optionBind_some]
    simp [mkTrade]
  · simp only [processOrderList, if_pos (And.intro hlen hq), hh,
      if_neg (by omega : ¬ q < (σ.orders h).quantity), if_pos heq]
    cases hrem : removeOrderById σ (side == Bid) (σ.orders h).orderID with
    | none => simp [optionBind_none]
    | some σ1 =>
      simp only [optionBind_some, Option.some_bind]
      rw [processOrderList_done side la fuel σ1 0 (by omega)]
      simp [optionBind_some]
  · simp only [processOrderList, if_pos (And.intro hlen hq), hh,
      if_neg (by omega : ¬ q < (σ.orders h).quantity),
      if_neg (by omega : ¬ q = (σ.orders h).quantity)]
    cases hrem : removeOrderById σ (side == Bid) (σ.orders h).orderID with
    | none => simp [optionBind_none]
    | some σ1 =>
      simp only [optionBind_some, Option.some_bind]
      cases hrec : processOrderList side la fuel σ1 q with
      | none => simp [optionBind_none]
      | some r =>
        obtain ⟨σ2, q2, ts⟩ := r
        simp [optionBind_some]

/-- C1.  The first two branches of `ProcessOrderList`'s three-way comparison
behave as claimed, but the third does not: in the `q > head.quantity` branch
the source (orderbook.go:201–208) removes the head and emits a trade of the
head's quantity yet never decrements `quantityToTrade`, so the loop does
*not* continue with `q − h.quantity`.  On a price level holding two resting
SELL orders of quantity 2 each, a remaining quantity of 3 would — per the
claim — finish with remaining 0, trades of quantities `[2, 1]` and the
second order still resting with quantity 1.  The code instead consumes both
orders whole (trades `[2, 2]`, the level emptied) and still reports the full
remaining quantity 3. -/
theorem processOrderList_never_decrements :
    (processOrderList Ask 0 4 sampleTwoAsks 3).map
      (fun r => (r.2.1, r.2.2.map (fun t => t.quantity), treeLength r.1 false)) =
      some (3, [2, 2], 0) := by
  decide

/-- C2.  A partial fill (`0 < q <` head quantity) leaves the partially filled
head order at the head of its price list with all its links and its
`UpdatedAt` unchanged — only its quantity (and the list/trade bookkeeping)
changes, and no other order object is touched. -/
theorem partial_fill_keeps_head_position
    (side : String) (la h : Nat) (σ : State) (q : Int) (fuel : Nat)
    (hlen : (σ.lists la).len > 0) (hq : 0 < q)
    (hh : (σ.lists la).hOrder = some h)
    (hbr : (σ.orders h).orderList = some la)
    (hlt : q < (σ.orders h).quantity) :
    ∃ σ1, processOrderList side la (fuel + 1) σ q =
        some (σ1, 0, [mkTrade σ (σ.orders h).price q]) ∧
      (σ1.lists la).hOrder = some h ∧
      (σ1.lists la).tOrder = (σ.lists la).tOrder ∧
      (σ1.lists la).len = (σ.lists la).len ∧
      (σ1.orders h).quantity = (σ.orders h).quantity - q ∧
      (σ1.orders h).updatedAt = (σ.orders h).updatedAt ∧
      (σ1.orders h).prevOrder = (σ.orders h).prevOrder ∧
      (σ1.orders h).nextOrder = (σ.orders h).nextOrder ∧
      (∀ a, a ≠ h → σ1.orders a = σ.orders a) := by
  refine ⟨_, (processOrderList_head_step side la h σ q fuel hlen hq hh hbr).1 hlt,
    ?_, ?_, ?_, ?_, ?_, ?_, ?_, ?_⟩ <;>
    simp [updOrder, updList, hh]
  intro a ha
  simp [ha]

/-- C2 witness: the partial fill of the sample resting BUY by quantity 2
keeps it at the head with quantity 3 and its original timestamp. -/
theorem partial_fill_keeps_head_position_witness :
    ∃ σ1, processOrderList Bid 0 (5 + 1) sampleBid100 2 =
        some (σ1, 0, [mkTrade sampleBid100 (sampleBid100.orders 1).price 2]) ∧
      (σ1.lists 0).hOrder = some 1 ∧
      (σ1.lists 0).tOrder = (sampleBid100.lists 0).tOrder ∧
      (σ1.lists 0).len = (sampleBid100.lists 0).len ∧
      (σ1.orders 1).quantity = (sampleBid100.orders 1).quantity - 2 ∧
      (σ1.orders 1).updatedAt = (sampleBid100.orders 1).updatedAt ∧
      (σ1.orders 1).prevOrder = (sampleBid100.orders 1).prevOrder ∧
      (σ1.orders 1).nextOrder = (sampleBid100.orders 1).nextOrder ∧
      (∀ a, a ≠ 1 → σ1.orders a = sampleBid100.orders a) :=
  partial_fill_keeps_head_position Bid 0 1 sampleBid100 2 5
    (by decide) (by decide) (by decide) (by decide) (by decide)

theorem headPtr_append (nxt : Option Nat) (L1 L2 : List Nat) :
    headPtr nxt (L1 ++ L2) = headPtr (headPtr nxt L2) L1 := by
  cases L1 <;> rfl

theorem headPtr_none (L : List Nat) : headPtr none L = L.head? := by
  cases L <;> rfl

theorem endPtr_cons (p : Option Nat) (a : Nat) (L : List Nat) :
    endPtr p (a :: L) = endPtr (some a) L := by
  cases L <;> rfl

theorem endPtr_nonempty (p : Option Nat) (L : List Nat) (h : L ≠ []) :
    endPtr p L = L.getLast? := by
  unfold endPtr
  cases hL : L.getLast? with
  | none => exact absurd (List.getLast?_eq_none_iff.mp hL) h
  | some t => rfl

/-- A segment only reads the order heap, so it transfers between states that
agree on the orders of its members. -/
theorem seg_congr (σ σ2 : State) (nxt : Option Nat) (L : List Nat) :
    ∀ p, seg σ p nxt L → (∀ a ∈ L, σ2.orders a = σ.orders a) → seg σ2 p nxt L := by
  induction L with
  | nil => intro p _ _; trivial
  | cons a rest ih =>
    intro p hs hpt
    obtain ⟨h1, h2, h3⟩ := hs
    have ha := hpt a (by simp)
    exact ⟨by rw [ha, h1], by rw [ha, h2],
      ih (some a) h3 (fun b hb => hpt b (by simp [hb]))⟩

/-- Updating a list record does not touch the order heap, so segments are
unaffected. -/
theorem seg_updList (σ : State) (la2 : Nat) (f : OrderList → OrderList)
    (p nxt : Option Nat) (L : List Nat) :
    seg (updList σ la2 f) p nxt L ↔ seg σ p nxt L :=
  ⟨fun h => seg_congr (updList σ la2 f) σ nxt L p h (fun a _ => rfl),
   fun h => seg_congr σ (updList σ la2 f) nxt L p h (fun a _ => rfl)⟩

/-- Splitting a doubly-linked segment at a list concatenation. -/
theorem seg_append (σ : State) (nxt : Option Nat) (L1 L2 : List Nat) :
    ∀ p, seg σ p nxt (L1 ++ L2) ↔
      seg σ p (headPtr nxt L2) L1 ∧ seg σ (endPtr p L1) nxt L2 := by
  induction L1 with
  | nil =>
    intro p
    simp [seg, endPtr]
  | cons a L1' ih =>
    intro p
    rw [List.cons_append]
    simp only [seg]
    rw [headPtr_append, ih (some a), endPtr_cons]
    tauto

theorem seg_last_next (σ : State) (nxt : Option Nat) (L : List Nat) :
    ∀ p t, seg σ p nxt L → L.getLast? = some t → (σ.orders t).nextOrder = nxt := by
  induction L with
  | nil => intro p t _ hl; cases hl
  | cons a rest ih =>
    intro p t h hl
    obtain ⟨h1, h2, h3⟩ := h
    cases rest with
    | nil =>
      obtain rfl : a = t := by simpa using hl
      simpa [headPtr] using h2
    | cons b rest' =>
      exact ih (some a) t h3 (by simpa using hl)

theorem getLastMem {l : List Nat} {t : Nat} (h : l.getLast? = some t) : t ∈ l := by
  induction l with
  | nil => cases h
  | cons a rest ih =>
    cases rest with
    | nil =>
      obtain rfl : a = t := by simpa using h
      simp
    | cons b r2 =>
      rw [List.getLast?_cons_cons] at h
      exact List.mem_cons_of_mem _ (ih h)

/-- Updating the `nextOrder` of the last element of a segment re-targets its
continuation. -/
theorem seg_set_last_next (σ : State) (nxt y : Option Nat) (L : List Nat) :
    ∀ p t, seg σ p nxt L → L.getLast? = some t → L.Nodup →
      seg (updOrder σ t fun x => { x with nextOrder := y }) p y L := by
  induction L with
  | nil => intro p t _ hl _; cases hl
  | cons a rest ih =>
    intro p t h hl hnd
    obtain ⟨h1, h2, h3⟩ := h
    cases rest with
    | nil =>
      obtain rfl : a = t := by simpa using hl
      exact ⟨by simpa using h1, by simp [headPtr], trivial⟩
    | cons b rest' =>
      have hlast : (b :: rest').getLast? = some t := by
        rw [List.getLast?_cons_cons] at hl; exact hl
      have hat : a ≠ t := by
        intro hc
        subst hc
        exact (List.nodup_cons.mp hnd).1 (getLastMem hlast)
      refine ⟨?_, ?_, ih (some a) t h3 hlast (List.nodup_cons.mp hnd).2⟩
      · rw [orders_updOrder_ne σ t a _ hat]; exact h1
      · rw [orders_updOrder_ne σ t a _ hat, h2]; rfl

/-- Updating the `prevOrder` of the first element of a segment re-targets its
back pointer. -/
theorem seg_set_head_prev (σ : State) (nxt y : Option Nat) (n : Nat) (rest : List Nat)
    (p : Option Nat) (h : seg σ p nxt (n :: rest)) (hnd : (n :: rest).Nodup) :
    seg (updOrder σ n fun x => { x with prevOrder := y }) y nxt (n :: rest) := by
  obtain ⟨h1, h2, h3⟩ := h
  have hnin : n ∉ rest := by
    simp [List.nodup_cons] at hnd
    exact hnd.1
  refine ⟨by simp, by simpa using h2, ?_⟩
  exact seg_congr σ _ nxt rest (some n) h3
    (fun a ha => orders_updOrder_ne σ n a _ (fun hc => hnin (hc ▸ ha)))

theorem chainFrom_eq_of_seg (σ : State) (L : List Nat) :
    ∀ p, seg σ p none L → chainFrom σ (headPtr none L) L.length = L := by
  induction L with
  | nil => intro p _; rfl
  | cons a rest ih =>
    intro p h
    obtain ⟨h1, h2, h3⟩ := h
    show chainFrom σ (some a) (rest.length + 1) = a :: rest
    simp only [chainFrom]
    rw [h2]
    exact congrArg (a :: ·) (ih (some a) h3)

theorem chainOrders_eq_of_isDLL (σ : State) (la : Nat) (L : List Nat)
    (h : isDLL σ la L) : chainOrders σ la = L := by
  obtain ⟨hlen, hhd, _, _, hseg⟩ := h
  unfold chainOrders
  rw [hhd, hlen, ← headPtr_none]
  have : ((L.length : Int)).toNat = L.length := by simp
  rw [this]
  exact chainFrom_eq_of_seg σ L none hseg

theorem follow_getLast_of_seg (σ : State) (L : List Nat) :
    ∀ p, seg σ p none L → L ≠ [] → follow σ L.head? (L.length - 1) = L.getLast? := by
  induction L with
  | nil => intro p _ h; exact absurd rfl h
  | cons a rest ih =>
    intro p h _
    obtain ⟨h1, h2, h3⟩ := h
    cases rest with
    | nil => rfl
    | cons b rest2 =>
      show follow σ (some a) (rest2.length + 1) = (a :: b :: rest2).getLast?
      simp only [follow]
      rw [h2, List.getLast?_cons_cons]
      exact ih (some a) h3 (by simp)

/-- `AppendOrder` on an (counted) empty list yields the singleton list,
whatever `HOrder`/`TOrder` were dangling at. -/
theorem appendOrder_empty_isDLL (σ σ2 : State) (la oa : Nat)
    (hl0 : (σ.lists la).len = 0) (happ : appendOrder σ la oa = some σ2) :
    isDLL σ2 la [oa] := by
  unfold appendOrder at happ
  rw [if_pos hl0] at happ
  obtain rfl := Option.some_inj.mp happ
  refine ⟨by simp [hl0], by simp, by simp, by simp, ?_, ?_, trivial⟩
  · simp
  · simp [headPtr]

/-- `AppendOrder` on a represented non-empty list appends the new order at
the tail. -/
theorem appendOrder_isDLL (σ σ2 : State) (la oa : Nat) (L : List Nat)
    (hne : L ≠ []) (hdll : isDLL σ la L) (hnin : oa ∉ L)
    (happ : appendOrder σ la oa = some σ2) :
    isDLL σ2 la (L ++ [oa]) := by
  obtain ⟨hlen, hhd, htl, hnd, hseg⟩ := hdll
  obtain ⟨t, ht⟩ : ∃ t, L.getLast? = some t := by
    cases hL : L.getLast? with
    | none => exact absurd (List.getLast?_eq_none_iff.mp hL) hne
    | some t => exact ⟨t, rfl⟩
  have htl2 : (σ.lists la).tOrder = some t := by rw [htl, ht]
  have hlpos : L.length ≠ 0 := by simpa using hne
  have hl0 : ¬ (σ.lists la).len = 0 := by
    rw [hlen]
    exact_mod_cast hlpos
  unfold appendOrder at happ
  rw [if_neg hl0, htl2] at happ
  obtain rfl := Option.some_inj.mp happ
  have htmem : t ∈ L := getLastMem ht
  have hta : t ≠ oa := fun hc => hnin (hc ▸ htmem)
  refine ⟨?_, ?_, ?_, ?_, ?_⟩
  · simp [hlen]
  · have : (L ++ [oa]).head? = L.head? := by
      cases L with
      | nil => exact absurd rfl hne
      | cons c L2 => rfl
    simp [this, hhd]
  · rw [List.getLast?_append_cons]
    simp
  · exact List.Nodup.append hnd (by simp) (by simpa [List.disjoint_singleton] using hnin)
  · refine (seg_append _ none L [oa] none).mpr ⟨?_, ?_⟩
    · -- the old chain, with the old tail's next re-targeted at oa
      have hsa : seg (updOrder σ oa fun o =>
          { o with prevOrder := some t, nextOrder := none }) none none L :=
        seg_congr σ _ none L none hseg
          (fun a ha => orders_updOrder_ne σ oa a _ (fun hc => hnin (hc ▸ ha)))
      have hsb := seg_set_last_next _ none (some oa) L none t hsa ht hnd
      exact (seg_updList _ _ _ _ _ _).mpr hsb
    · rw [endPtr_nonempty none L hne, ht]
      refine ⟨?_, ?_, trivial⟩
      · rw [orders_updList, orders_updOrder_ne _ t oa _ (Ne.symm hta), orders_updOrder_same]
      · rw [orders_updList, orders_updOrder_ne _ t oa _ (Ne.symm hta), orders_updOrder_same]
        rfl

/-- `RemoveOrder` of a linked order preserves the shape invariant: the list
either empties (counted empty, pointers possibly dangling — the early
return) or represents the list with the order deleted. -/
theorem removeOrder_shape (σ : State) (la oa : Nat) (L : List Nat)
    (hdll : isDLL σ la L) (hmem : oa ∈ L) :
    listShape (removeOrder σ la oa) la := by
  obtain ⟨hlen, hhd, htl, hnd, hseg⟩ := hdll
  obtain ⟨L1, L2, rfl⟩ : ∃ L1 L2, L = L1 ++ oa :: L2 := List.append_of_mem hmem
  have hnd0 := hnd
  rw [List.nodup_append] at hnd0
  obtain ⟨hnd1, hnd2, hdisj⟩ := hnd0
  obtain ⟨hseg1, hseg2⟩ := (seg_append σ none L1 (oa :: L2) none).mp hseg
  obtain ⟨hprev, hnext, hseg3⟩ := hseg2
  cases L1 with
  | nil =>
    cases L2 with
    | nil =>
      have hc : ((updList σ la fun l =>
          { l with volume := l.volume - (σ.orders oa).quantity,
                   len := l.len - 1 }).lists la).len = 0 := by
        simp [hlen]
      left
      simp only [removeOrder]
      rw [if_pos hc]
      exact hc
    | cons b L2' =>
      have hnext2 : (σ.orders oa).nextOrder = some b := by rw [hnext]; rfl
      have hprev2 : (σ.orders oa).prevOrder = none := by rw [hprev]; rfl
      have hc : ¬ ((updList σ la fun l =>
          { l with volume := l.volume - (σ.orders oa).quantity,
                   len := l.len - 1 }).lists la).len = 0 := by
        simp [hlen]
        omega
      right
      refine ⟨b :: L2', by simp, ?_⟩
      simp only [removeOrder]
      rw [hnext2, hprev2, if_neg hc]
      refine ⟨?_, ?_, ?_, hnd2.of_cons, ?_⟩
      · simp [hlen]
      · simp
      · simp [htl, List.getLast?_cons_cons]
      · have h3b : seg (updList σ la fun l =>
            { l with volume := l.volume - (σ.orders oa).quantity,
                     len := l.len - 1 }) (some oa) none (b :: L2') :=
          (seg_updList _ _ _ _ _ _).mpr hseg3
        have h4 := seg_set_head_prev _ none none b L2' (some oa) h3b hnd2.of_cons
        exact (seg_updList _ _ _ _ _ _).mpr h4
  | cons c L1' =>
    obtain ⟨t1, ht1⟩ : ∃ t1, (c :: L1').getLast? = some t1 :=
      ⟨_, List.getLast?_eq_getLast_of_ne_nil (by simp)⟩
    have ht1mem : t1 ∈ c :: L1' := getLastMem ht1
    have hprev2 : (σ.orders oa).prevOrder = some t1 := by
      rw [hprev, endPtr_nonempty none _ (by simp), ht1]
    cases L2 with
    | nil =>
      have hnext2 : (σ.orders oa).nextOrder = none := by rw [hnext]; rfl
      have hc : ¬ ((updList σ la fun l =>
          { l with volume := l.volume - (σ.orders oa).quantity,
                   len := l.len - 1 }).lists la).len = 0 := by
        simp [hlen]
        omega
      right
      refine ⟨c :: L1', by simp, ?_⟩
      simp only [removeOrder]
      rw [hnext2, hprev2, if_neg hc]
      refine ⟨?_, ?_, ?_, hnd1, ?_⟩
      · simp [hlen]
      · simp [hhd]
      · simp [ht1]
      · have h1b : seg (updList σ la fun l =>
            { l with volume := l.volume - (σ.orders oa).quantity,
                     len := l.len - 1 }) none (some oa) (c :: L1') :=
          (seg_updList _ _ _ _ _ _).mpr hseg1
        have h4 := seg_set_last_next _ (some oa) none (c :: L1') none t1 h1b ht1 hnd1
        exact (seg_updList _ _ _ _ _ _).mpr h4
    | cons b L2' =>
      have hnext2 : (σ.orders oa).nextOrder = some b := by rw [hnext]; rfl
      have hbnotL1 : b ∉ c :: L1' := fun hb => hdisj hb (by simp)
      have ht1notL2 : t1 ∉ b :: L2' :=
        fun hx => hdisj ht1mem (List.mem_cons_of_mem _ hx)
      have hc : ¬ ((updList σ la fun l =>
          { l with volume := l.volume - (σ.orders oa).quantity,
                   len := l.len - 1 }).lists la).len = 0 := by
        simp [hlen]
        omega
      right
      refine ⟨(c :: L1') ++ b :: L2', by simp, ?_⟩
      simp only [removeOrder]
      rw [hnext2, hprev2, if_neg hc]
      refine ⟨?_, ?_, ?_, ?_, ?_⟩
      · simp [hlen]
        omega
      · simp [hhd]
      · rw [lists_updOrder, lists_updOrder, lists_updList_same]
        dsimp only
        rw [htl, List.getLast?_append_cons, List.getLast?_append_cons,
          List.getLast?_cons_cons]
      · exact List.Nodup.append hnd1 hnd2.of_cons
          (fun a ha hb => hdisj ha (List.mem_cons_of_mem _ hb))
      · refine (seg_append _ none (c :: L1') (b :: L2') none).mpr ⟨?_, ?_⟩
        · have h1b : seg (updList σ la fun l =>
              { l with volume := l.volume - (σ.orders oa).quantity,
                       len := l.len - 1 }) none (some oa) (c :: L1') :=
            (seg_updList _ _ _ _ _ _).mpr hseg1
          have h1c : seg (updOrder (updList σ la fun l =>
              { l with volume := l.volume - (σ.orders oa).quantity,
                       len := l.len - 1 }) b fun x => { x with prevOrder := some t1 })
              none (some oa) (c :: L1') :=
            seg_congr _ _ (some oa) _ none h1b
              (fun a ha => orders_updOrder_ne _ b a _ (fun hcc => hbnotL1 (hcc ▸ ha)))
          exact seg_set_last_next _ (some oa) (some b) (c :: L1') none t1 h1c ht1 hnd1
        · rw [endPtr_nonempty none _ (by simp), ht1]
          have h3b : seg (updList σ la fun l =>
              { l with volume := l.volume - (σ.orders oa).quantity,
                       len := l.len - 1 }) (some oa) none (b :: L2') :=
            (seg_updList _ _ _ _ _ _).mpr hseg3
          have h3c := seg_set_head_prev _ none (some t1) b L2' (some oa) h3b hnd2.of_cons
          exact seg_congr _ _ none _ (some t1) h3c
            (fun a ha => orders_updOrder_ne _ t1 a _ (fun hcc => ht1notL2 (hcc ▸ ha)))

theorem chainFrom_zero (σ : State) (o : Option Nat) : chainFrom σ o 0 = [] := by
  cases o <;> rfl

theorem listReach_shape (la : Nat) (σ : State) (h : ListReach la σ) : listShape σ la := by
  induction h with
  | init σ0 h1 h2 h3 => exact Or.inl h3
  | append σ0 σ2 oa h0 hfresh happ ih =>
    cases ih with
    | inl hl0 =>
      exact Or.inr ⟨[oa], by simp, appendOrder_empty_isDLL σ0 σ2 la oa hl0 happ⟩
    | inr hex =>
      obtain ⟨L, hne, hdll⟩ := hex
      rw [chainOrders_eq_of_isDLL σ0 la L hdll] at hfresh
      exact Or.inr ⟨L ++ [oa], by simp,
        appendOrder_isDLL σ0 σ2 la oa L hne hdll hfresh happ⟩
  | remove σ0 oa h0 hmem ih =>
    cases ih with
    | inl hl0 =>
      exfalso
      have hch : chainOrders σ0 la = [] := by
        unfold chainOrders
        rw [hl0]
        exact chainFrom_zero σ0 _
      rw [hch] at hmem
      exact absurd hmem (List.not_mem_nil oa)
    | inr hex =>
      obtain ⟨L, hne, hdll⟩ := hex
      rw [chainOrders_eq_of_isDLL σ0 la L hdll] at hmem
      exact removeOrder_shape σ0 la oa L hdll hmem

theorem listShape_headTailChain (σ : State) (la : Nat) (h : listShape σ la) :
    listHeadTailChain σ la := by
  intro hpos
  cases h with
  | inl hl0 => exact absurd hl0 (by omega)
  | inr hex =>
    obtain ⟨L, hne, hlen, hhd, htl, hnd, hseg⟩ := hex
    cases L with
    | nil => exact absurd rfl hne
    | cons a L2 =>
      obtain ⟨t, ht⟩ : ∃ t, (a :: L2).getLast? = some t :=
        ⟨_, List.getLast?_eq_getLast_of_ne_nil (by simp)⟩
      refine ⟨a, t, by rw [hhd]; rfl, by rw [htl, ht], hseg.1,
        seg_last_next σ none (a :: L2) none t hseg ht, ?_⟩
      have hn : (((σ.lists la).len - 1).toNat) = (a :: L2).length - 1 := by
        rw [hlen]
        simp only [List.length_cons]
        omega
      rw [hn]
      have hf := follow_getLast_of_seg σ (a :: L2) none hseg (by simp)
      rw [ht] at hf
      exact hf

/-- C7 (amended).  Starting from a fresh list (`NewOrderList`) and applying
any sequence of `AppendOrder` (of a not-yet-linked order) and `RemoveOrder`
(of a linked order), whenever `Len > 0` the list has a head and a tail, the
head's `PrevOrder` is nil, the tail's `NextOrder` is nil, and following
`NextOrder` from the head exactly `Len − 1` times reaches the tail.  The
claim's further assertions fail on the code and are excluded here: after a
`RemoveOrder` that empties the list, `Len = 0` but `HOrder`/`TOrder` still
reference the removed order (the code returns early), and `MoveToTail`
leaves the moved order's own `NextOrder` stale, breaking
`TOrder.NextOrder = nil`. -/
theorem orderList_ops_preserve_chain (la : Nat) (σ : State) (h : ListReach la σ) :
    listHeadTailChain σ la :=
  listShape_headTailChain σ la (listReach_shape la σ h)

/-- C7 witness: after appending orders 1 and 2 to a fresh list and removing
order 1, the surviving list satisfies the head/tail/chain properties. -/
theorem orderList_ops_preserve_chain_witness : listHeadTailChain w7c 0 :=
  orderList_ops_preserve_chain 0 w7c
    (ListReach.remove w7b 1
      (ListReach.append w7a w7b 2
        (ListReach.append emptyState w7a 1
          (ListReach.init emptyState rfl rfl rfl)
          (by decide) rfl)
        (by decide) rfl)
      (by decide))

/-- C7 counterexample.  The claim as stated is false on the code in two
ways, both exhibited on concrete runs: (1) appending order 1 to a fresh list
and removing it (a legal sequence) leaves `Len = 0` while `HOrder` and
`TOrder` still point at order 1, refuting `Len = 0 ↔ HOrder = TOrder = nil`;
(2) appending orders 1 and 2 and calling `MoveToTail` on order 1 (the head,
not the tail — exactly the call `UpdateQuantity` makes) leaves the new tail
(order 1) with `NextOrder = some 2 ≠ nil`, refuting `TOrder.NextOrder = nil`. -/
theorem orderList_shape_claim_fails :
    ((appendOrder emptyState 0 1).map fun σ1 =>
      (((removeOrder σ1 0 1).lists 0).len,
       ((removeOrder σ1 0 1).lists 0).hOrder,
       ((removeOrder σ1 0 1).lists 0).tOrder)) = some (0, some 1, some 1) ∧
    ((do
        let σ1 ← appendOrder emptyState 0 1
        let σ2 ← appendOrder σ1 0 2
        moveToTail σ2 0 1 : Option State).map fun σ3 =>
      ((σ3.lists 0).tOrder, (σ3.orders 1).nextOrder)) = some (some 1, some 2) :=
  ⟨by decide, by decide⟩

/-! ## C3 — the residual of a partially matched limit order rests -/
/-- C3.  For every limit order processed by `ProcessOrder` and
`ProcessLimitOrder` that is not fully matched — witnessed by a returned
residual `ra` — the residual is the quote itself (`ra = qa`), its `OrderID`
in the final state is the book's current `NextOrderID` (the caller's value
plus the increment `ProcessOrder` performed at the start of the call), its
quantity is the remaining amount `q1 > 0` that its side's consumption loop
returned, and the final state is exactly the insertion of the re-stamped
quote into its own side's tree (`Bids` when the side is `BUY`, `Asks`
otherwise). -/
theorem limit_residual_rests
    (σ : State) (qa now fuel : Nat) (σf : State) (trades : List Trade)
    (resid : Option Nat) (ra : Nat)
    (htyp : (((σ.orders qa).typ) == Market) = false)
    (hrun : processOrder σ qa now fuel = some (σf, trades, resid))
    (hres : resid = some ra) :
    ra = qa ∧
    (σf.orders qa).orderID = σ.book.nextOrderID + 1 ∧
    ∃ σ1 q1, q1 > 0 ∧ (σf.orders qa).quantity = q1 ∧
      σ1.book.nextOrderID = σ.book.nextOrderID + 1 ∧
      insertOrder (updOrder σ1 qa fun o =>
        { o with orderID := σ1.book.nextOrderID, quantity := q1 })
        ((σ.orders qa).side == Bid) qa = some σf ∧
      ((((σ.orders qa).side == Bid) = true ∧
        limitBidLoop ((σ.orders qa).price) fuel
          (incNextOrderID (updOrder (updateTime σ now) qa fun o =>
            { o with updatedAt := now }))
          ((σ.orders qa).quantity) = some (σ1, q1, trades)) ∨
       (((σ.orders qa).side == Bid) = false ∧ ((σ.orders qa).side == Ask) = true ∧
        limitAskLoop ((σ.orders qa).price) fuel
          (incNextOrderID (updOrder (updateTime σ now) qa fun o =>
            { o with updatedAt := now }))
          ((σ.orders qa).quantity) = some (σ1, q1, trades))) := by
  subst hres
  have hord3 : (incNextOrderID (updOrder (updateTime σ now) qa fun o =>
      { o with updatedAt := now })).orders qa =
      { σ.orders qa with updatedAt := now } := by
    rw [orders_incNextOrderID, orders_updOrder_same, orders_updateTime]
  simp only [processOrder] at hrun
  rw [hord3] at hrun
  have htyp2 : (({ σ.orders qa with updatedAt := now } : Order).typ == Market) = false := htyp
  rw [htyp2] at hrun
  simp only [Bool.false_eq_true, if_false] at hrun
  simp only [processLimitOrder] at hrun
  rw [hord3] at hrun
  cases hbid : (((σ.orders qa).side) == Bid) with
  | true =>
    have hbid2 : (({ σ.orders qa with updatedAt := now } : Order).side == Bid) = true := hbid
    rw [hbid2] at hrun
    simp only [if_true] at hrun
    cases hloop : limitBidLoop ((σ.orders qa).price) fuel
        (incNextOrderID (updOrder (updateTime σ now) qa fun o =>
          { o with updatedAt := now })) ((σ.orders qa).quantity) with
    | none => rw [hloop] at hrun; cases hrun
    | some r =>
      obtain ⟨σ1, q1, ts1⟩ := r
      rw [hloop, optionBind_some] at hrun
      split at hrun
      · rename_i hq1
        cases hins : insertOrder (updOrder σ1 qa fun o =>
            { o with orderID := σ1.book.nextOrderID, quantity := q1 }) true qa with
        | none => rw [hins] at hrun; cases hrun
        | some σ6 =>
          rw [hins, optionBind_some] at hrun
          cases hrun
          have hnid : σ1.book.nextOrderID = σ.book.nextOrderID + 1 := by
            have := (consumeFrame_limitBidLoop ((σ.orders qa).price) fuel _
              ((σ.orders qa).quantity) σ1 q1 ts1 hloop).2.1
            rw [this]
            rfl
          have hcore := linkOnly_insertOrder _ true qa _ hins qa
          refine ⟨rfl, ?_, σ1, q1, hq1, ?_, hnid, hins, Or.inl ⟨rfl, rfl⟩⟩
          · rw [hcore.1, orders_updOrder_same]
            exact hnid
          · rw [hcore.2, orders_updOrder_same]
      · cases hrun
  | false =>
    have hbid2 : (({ σ.orders qa with updatedAt := now } : Order).side == Bid) = false := hbid
    rw [hbid2] at hrun
    simp only [Bool.false_eq_true, if_false] at hrun
    cases hask : (((σ.orders qa).side) == Ask) with
    | true =>
      have hask2 : (({ σ.orders qa with updatedAt := now } : Order).side == Ask) = true := hask
      rw [hask2] at hrun
      simp only [if_true] at hrun
      cases hloop : limitAskLoop ((σ.orders qa).price) fuel
          (incNextOrderID (updOrder (updateTime σ now) qa fun o =>
            { o with updatedAt := now })) ((σ.orders qa).quantity) with
      | none => rw [hloop] at hrun; cases hrun
      | some r =>
        obtain ⟨σ1, q1, ts1⟩ := r
        rw [hloop, optionBind_some] at hrun
        split at hrun
        · rename_i hq1
          cases hins : insertOrder (updOrder σ1 qa fun o =>
              { o with orderID := σ1.book.nextOrderID, quantity := q1 }) false qa with
          | none => rw [hins] at hrun; cases hrun
          | some σ6 =>
            rw [hins, optionBind_some] at hrun
            cases hrun
            have hnid : σ1.book.nextOrderID = σ.book.nextOrderID + 1 := by
              have := (consumeFrame_limitAskLoop ((σ.orders qa).price) fuel _
                ((σ.orders qa).quantity) σ1 q1 ts1 hloop).2.1
              rw [this]
              rfl
            have hcore := linkOnly_insertOrder _ false qa _ hins qa
            refine ⟨rfl, ?_, σ1, q1, hq1, ?_, hnid, hins, Or.inr ⟨rfl, rfl, rfl⟩⟩
            · rw [hcore.1, orders_updOrder_same]
              exact hnid
            · rw [hcore.2, orders_updOrder_same]
        · cases hrun
    | false =>
      have hask2 : (({ σ.orders qa with updatedAt := now } : Order).side == Ask) = false := hask
      rw [hask2] at hrun
      simp only [Bool.false_eq_true, if_false] at hrun
      cases hrun

/-- C3 witness: processing the sample limit BUY on an empty book leaves a
residual resting order with id 1 and quantity 5. -/
theorem limit_residual_rests_witness :
    1 = 1 ∧
    (c3res.1.orders 1).orderID = sampleLimitBuy.book.nextOrderID + 1 ∧
    ∃ σ1 q1, q1 > 0 ∧ (c3res.1.orders 1).quantity = q1 ∧
      σ1.book.nextOrderID = sampleLimitBuy.book.nextOrderID + 1 ∧
      insertOrder (updOrder σ1 1 fun o =>
        { o with orderID := σ1.book.nextOrderID, quantity := q1 })
        ((sampleLimitBuy.orders 1).side == Bid) 1 = some c3res.1 ∧
      ((((sampleLimitBuy.orders 1).side == Bid) = true ∧
        limitBidLoop ((sampleLimitBuy.orders 1).price) 4
          (incNextOrderID (updOrder (updateTime sampleLimitBuy 7) 1 fun o =>
            { o with updatedAt := 7 }))
          ((sampleLimitBuy.orders 1).quantity) = some (σ1, q1, c3res.2.1)) ∨
       (((sampleLimitBuy.orders 1).side == Bid) = false ∧
        ((sampleLimitBuy.orders 1).side == Ask) = true ∧
        limitAskLoop ((sampleLimitBuy.orders 1).price) 4
          (incNextOrderID (updOrder (updateTime sampleLimitBuy 7) 1 fun o =>
            { o with updatedAt := 7 }))
          ((sampleLimitBuy.orders 1).quantity) = some (σ1, q1, c3res.2.1))) :=
  limit_residual_rests sampleLimitBuy 1 7 4 c3res.1 c3res.2.1 c3res.2.2 1
    (by decide) rfl (by decide)

/-! ## C4 — a market order never rests -/
/-- C4.  A market order processed by `ProcessOrder` never rests: the residual
is `none`, no key is ever added to either side's order map (each final order
map's keys are contained in the initial one's), and in particular a market
SELL against an empty bid book produces no trades and leaves the state
exactly as the `ProcessOrder` preamble (time stamp, `UpdatedAt` stamp, and
`NextOrderID` increment) left it. -/
theorem market_order_never_rests
    (σ : State) (qa now fuel : Nat) (σf : State) (trades : List Trade)
    (resid : Option Nat)
    (htyp : (((σ.orders qa).typ) == Market) = true)
    (hrun : processOrder σ qa now fuel = some (σf, trades, resid)) :
    resid = none ∧
    keySub (getTree σf true).orderMap (getTree σ true).orderMap ∧
    keySub (getTree σf false).orderMap (getTree σ false).orderMap ∧
    (((σ.orders qa).side == Ask) = true → (getTree σ true).orderMap = [] →
      trades = [] ∧
      σf = incNextOrderID (updOrder (updateTime σ now) qa fun o =>
        { o with updatedAt := now })) := by
  have hord3 : (incNextOrderID (updOrder (updateTime σ now) qa fun o =>
      { o with updatedAt := now })).orders qa =
      { σ.orders qa with updatedAt := now } := by
    rw [orders_incNextOrderID, orders_updOrder_same, orders_updateTime]
  have hpre : ∀ b, getTree (incNextOrderID (updOrder (updateTime σ now) qa fun o =>
      { o with updatedAt := now })) b = getTree σ b := by
    intro b; cases b <;> rfl
  simp only [processOrder] at hrun
  rw [hord3] at hrun
  have htyp2 : (({ σ.orders qa with updatedAt := now } : Order).typ == Market) = true := htyp
  rw [htyp2] at hrun
  simp only [if_true] at hrun
  cases hm : processMarketOrder (incNextOrderID (updOrder (updateTime σ now) qa fun o =>
      { o with updatedAt := now })) qa fuel with
  | none => rw [hm] at hrun; cases hrun
  | some r =>
    obtain ⟨σ4, ts4⟩ := r
    rw [hm, optionBind_some] at hrun
    cases hrun
    simp only [processMarketOrder] at hm
    rw [hord3] at hm
    cases hbid : (((σ.orders qa).side) == Bid) with
    | true =>
      have hbid2 : (({ σ.orders qa with updatedAt := now } : Order).side == Bid) = true := hbid
      rw [hbid2] at hm
      simp only [if_true] at hm
      cases hloop : marketBidLoop fuel (incNextOrderID (updOrder (updateTime σ now) qa fun o =>
          { o with updatedAt := now })) (({ σ.orders qa with updatedAt := now } : Order).quantity) with
      | none => rw [hloop] at hm; cases hm
      | some r2 =>
        obtain ⟨σ1, q1, ts1⟩ := r2
        rw [hloop, optionBind_some] at hm
        cases hm
        have hframe := consumeFrame_marketBidLoop fuel _ _ σ1 q1 ts1 hloop
        have heq : getTree σ1 true = getTree (incNextOrderID (updOrder (updateTime σ now)
            qa fun o => { o with updatedAt := now })) true := hframe.2.2.1
        have hks : keySub (getTree σ1 false).orderMap
            (getTree (incNextOrderID (updOrder (updateTime σ now) qa fun o =>
              { o with updatedAt := now })) false).orderMap := hframe.2.2.2.2
        rw [hpre false] at hks
        refine ⟨rfl, ?_, hks, ?_⟩
        · rw [heq, hpre true]
          exact keySub_refl _
        · intro hA _
          have hBA : (σ.orders qa).side = Bid := by
            exact eq_of_beq hbid
          rw [hBA] at hA
          exact absurd hA (by decide)
    | false =>
      have hbid2 : (({ σ.orders qa with updatedAt := now } : Order).side == Bid) = false := hbid
      rw [hbid2] at hm
      simp only [Bool.false_eq_true, if_false] at hm
      cases hask : (((σ.orders qa).side) == Ask) with
      | true =>
        have hask2 : (({ σ.orders qa with updatedAt := now } : Order).side == Ask) = true := hask
        rw [hask2] at hm
        simp only [if_true] at hm
        cases hloop : marketAskLoop fuel (incNextOrderID (updOrder (updateTime σ now) qa fun o =>
            { o with updatedAt := now })) (({ σ.orders qa with updatedAt := now } : Order).quantity) with
        | none => rw [hloop] at hm; cases hm
        | some r2 =>
          obtain ⟨σ1, q1, ts1⟩ := r2
          rw [hloop, optionBind_some] at hm
          cases hm
          have hframe := consumeFrame_marketAskLoop fuel _ _ σ1 q1 ts1 hloop
          have heq : getTree σ1 false = getTree (incNextOrderID (updOrder (updateTime σ now)
              qa fun o => { o with updatedAt := now })) false := hframe.2.2.1
          have hks : keySub (getTree σ1 true).orderMap
              (getTree (incNextOrderID (updOrder (updateTime σ now) qa fun o =>
                { o with updatedAt := now })) true).orderMap := hframe.2.2.2.2
          rw [hpre true] at hks
          refine ⟨rfl, hks, ?_, ?_⟩
          · rw [heq, hpre false]
            exact keySub_refl _
          · intro _ hempty
            have hlen : treeLength (incNextOrderID (updOrder (updateTime σ now) qa fun o =>
                { o with updatedAt := now })) true = 0 := by
              rw [treeLength, hpre true, hempty]
              rfl
            have hcond : ¬ ((({ σ.orders qa with updatedAt := now } : Order).quantity) > 0 ∧
                treeLength (incNextOrderID (updOrder (updateTime σ now) qa fun o =>
                  { o with updatedAt := now })) true > 0) := by
              rw [hlen]
              rintro ⟨_, h0⟩
              exact absurd h0 (by omega)
            cases fuel with
            | zero =>
              simp only [marketAskLoop] at hloop
              rw [if_neg hcond] at hloop
              cases hloop
              exact ⟨rfl, rfl⟩
            | succ f =>
              simp only [marketAskLoop] at hloop
              rw [if_neg hcond] at hloop
              cases hloop
              exact ⟨rfl, rfl⟩
      | false =>
        have hask2 : (({ σ.orders qa with updatedAt := now } : Order).side == Ask) = false := hask
        rw [hask2] at hm
        simp only [Bool.false_eq_true, if_false] at hm
        cases hm
        refine ⟨rfl, ?_, ?_, ?_⟩
        · rw [hpre true]; exact keySub_refl _
        · rw [hpre false]; exact keySub_refl _
        · intro hA _
          simp at hA

/-- C4 witness: a market SELL against the empty book returns no residual, no
new tree keys, and (the bid book being empty) no trades and the bare
preamble state. -/
theorem market_order_never_rests_witness :
    c4res.2.2 = none ∧
    keySub (getTree c4res.1 true).orderMap (getTree sampleMarketSell true).orderMap ∧
    keySub (getTree c4res.1 false).orderMap (getTree sampleMarketSell false).orderMap ∧
    (((sampleMarketSell.orders 1).side == Ask) = true →
      (getTree sampleMarketSell true).orderMap = [] →
      c4res.2.1 = [] ∧
      c4res.1 = incNextOrderID (updOrder (updateTime sampleMarketSell 7) 1 fun o =>
        { o with updatedAt := 7 })) :=
  market_order_never_rests sampleMarketSell 1 7 4 c4res.1 c4res.2.1 c4res.2.2
    (by decide) rfl

theorem priceQuiet_refl (σ : State) : priceQuiet σ σ := fun _ => rfl

theorem priceQuiet_trans {σ1 σ2 σ3 : State}
    (h1 : priceQuiet σ1 σ2) (h2 : priceQuiet σ2 σ3) : priceQuiet σ1 σ3 :=
  fun a => (h2 a).trans (h1 a)

theorem priceQuiet_updOrder (σ : State) (x : Nat) (f : Order → Order)
    (hf : ∀ o, (f o).price = o.price) : priceQuiet σ (updOrder σ x f) := by
  intro a
  by_cases hax : a = x
  · subst hax
    rw [orders_updOrder_same]
    exact hf (σ.orders a)
  · rw [orders_updOrder_ne _ _ _ _ hax]

theorem priceQuiet_peel_updList (σ σ1 : State) (x : Nat) (f : OrderList → OrderList)
    (h : priceQuiet σ σ1) : priceQuiet σ (updList σ1 x f) :=
  fun a => by rw [orders_updList]; exact h a

theorem priceQuiet_peel_modTree (σ σ1 : State) (b : Bool) (f : OrderTree → OrderTree)
    (h : priceQuiet σ σ1) : priceQuiet σ (modTree σ1 b f) :=
  fun a => by rw [orders_modTree]; exact h a

theorem priceQuiet_peel_removePrice (σ σ1 : State) (b : Bool) (p : Int)
    (h : priceQuiet σ σ1) : priceQuiet σ (removePrice σ1 b p) :=
  fun a => by rw [orders_removePrice]; exact h a

theorem priceQuiet_peel_createPrice (σ σ1 : State) (b : Bool) (p : Int)
    (h : priceQuiet σ σ1) : priceQuiet σ (createPrice σ1 b p) :=
  fun a => by rw [orders_createPrice]; exact h a

theorem priceQuiet_peel_updOrder (σ σ1 : State) (x : Nat) (f : Order → Order)
    (hf : ∀ o, (f o).price = o.price)
    (h : priceQuiet σ σ1) : priceQuiet σ (updOrder σ1 x f) :=
  priceQuiet_trans h (priceQuiet_updOrder σ1 x f hf)

theorem priceQuiet_removeOrder (σ : State) (la oa : Nat) :
    priceQuiet σ (removeOrder σ la oa) := by
  simp only [removeOrder]
  split
  · exact priceQuiet_peel_updList _ _ _ _ (priceQuiet_refl σ)
  · split
    · exact priceQuiet_peel_updOrder _ _ _ _ (fun o => rfl)
        (priceQuiet_peel_updOrder _ _ _ _ (fun o => rfl)
          (priceQuiet_peel_updList _ _ _ _ (priceQuiet_refl σ)))
    · exact priceQuiet_peel_updList _ _ _ _
        (priceQuiet_peel_updOrder _ _ _ _ (fun o => rfl)
          (priceQuiet_peel_updList _ _ _ _ (priceQuiet_refl σ)))
    · exact priceQuiet_peel_updList _ _ _ _
        (priceQuiet_peel_updOrder _ _ _ _ (fun o => rfl)
          (priceQuiet_peel_updList _ _ _ _ (priceQuiet_refl σ)))
    · exact priceQuiet_peel_updList _ _ _ _ (priceQuiet_refl σ)

theorem priceQuiet_peel_removeOrder (σ σ1 : State) (la oa : Nat)
    (h : priceQuiet σ σ1) : priceQuiet σ (removeOrder σ1 la oa) :=
  priceQuiet_trans h (priceQuiet_removeOrder σ1 la oa)

theorem priceQuiet_moveToTail (σ : State) (la oa : Nat) (σ2 : State)
    (h : moveToTail σ la oa = some σ2) : priceQuiet σ σ2 := by
  simp only [moveToTail] at h
  repeat' split at h
  all_goals cases h
  all_goals
    repeat' first
      | exact priceQuiet_refl _
      | refine priceQuiet_peel_updList _ _ _ _ ?_
      | refine priceQuiet_peel_updOrder _ _ _ _ (fun o => rfl) ?_

theorem priceQuiet_updateQuantity (σ : State) (oa : Nat) (q : Int) (ts : Nat)
    (σ2 : State) (h : updateQuantity σ oa q ts = some σ2) : priceQuiet σ σ2 := by
  simp only [updateQuantity] at h
  split at h
  · cases h
  · rename_i la hla
    split at h
    · cases hm : moveToTail σ la oa with
      | none => rw [hm] at h; cases h
      | some σ1 =>
        rw [hm, optionBind_some] at h
        cases h
        exact priceQuiet_peel_updOrder _ _ _ _ (fun o => rfl)
          (priceQuiet_peel_updList _ _ _ _ (priceQuiet_moveToTail σ la oa σ1 hm))
    · rw [optionBind_some] at h
      cases h
      exact priceQuiet_peel_updOrder _ _ _ _ (fun o => rfl)
        (priceQuiet_peel_updList _ _ _ _ (priceQuiet_refl σ))

theorem priceQuiet_appendOrder (σ : State) (la oa : Nat) (σ2 : State)
    (h : appendOrder σ la oa = some σ2) : priceQuiet σ σ2 := by
  simp only [appendOrder] at h
  split at h
  · cases h
    exact priceQuiet_peel_updList _ _ _ _
      (priceQuiet_peel_updOrder _ _ _ _ (fun o => rfl) (priceQuiet_refl σ))
  · split at h
    · cases h
    · cases h
      exact priceQuiet_peel_updList _ _ _ _
        (priceQuiet_peel_updOrder _ _ _ _ (fun o => rfl)
          (priceQuiet_peel_updOrder _ _ _ _ (fun o => rfl) (priceQuiet_refl σ)))

theorem priceQuiet_removeOrderById (σ : State) (b : Bool) (id : Nat) (σ2 : State)
    (h : removeOrderById σ b id = some σ2) : priceQuiet σ σ2 := by
  simp only [removeOrderById] at h
  split at h
  · cases h
  · rename_i oa hoa
    split at h
    · cases h
    · rename_i la hla
      cases h
      refine priceQuiet_peel_modTree _ _ _ _ ?_
      split
      · exact priceQuiet_peel_removePrice _ _ _ _
          (priceQuiet_peel_removeOrder _ _ _ _
            (priceQuiet_peel_modTree _ _ _ _
              (priceQuiet_peel_modTree _ _ _ _ (priceQuiet_refl σ))))
      · exact priceQuiet_peel_removeOrder _ _ _ _
          (priceQuiet_peel_modTree _ _ _ _
            (priceQuiet_peel_modTree _ _ _ _ (priceQuiet_refl σ)))

theorem priceQuiet_processOrderList (side : String) (la : Nat) :
    ∀ (fuel : Nat) (σ : State) (q : Int) (σ2 : State) (q2 : Int) (ts : List Trade),
      processOrderList side la fuel σ q = some (σ2, q2, ts) → priceQuiet σ σ2 := by
  intro fuel
  induction fuel with
  | zero =>
    intro σ q σ2 q2 ts h
    simp only [processOrderList] at h
    split at h
    · cases h
    · cases h
      exact priceQuiet_refl _
  | succ fuel ih =>
    intro σ q σ2 q2 ts h
    simp only [processOrderList] at h
    split at h
    · split at h
      · cases h
      · rename_i hv hh
        split at h
        · cases hupd : updateQuantity σ hv ((σ.orders hv).quantity - q)
              ((σ.orders hv).updatedAt) with
          | none => rw [hupd] at h; cases h
          | some σ1 =>
            rw [hupd, optionBind_some] at h
            cases hrec : processOrderList side la fuel σ1 0 with
            | none => rw [hrec] at h; cases h
            | some r =>
              obtain ⟨σr, qr, tr⟩ := r
              rw [hrec, optionBind_some] at h
              cases h
              exact priceQuiet_trans
                (priceQuiet_updateQuantity σ _ _ _ σ1 hupd)
                (ih σ1 0 σr qr tr hrec)
        · split at h
          · cases hrem : removeOrderById σ (side == Bid) ((σ.orders hv).orderID) with
            | none => rw [hrem] at h; cases h
            | some σ1 =>
              rw [hrem, optionBind_some] at h
              cases hrec : processOrderList side la fuel σ1 0 with
              | none => rw [hrec] at h; cases h
              | some r =>
                obtain ⟨σr, qr, tr⟩ := r
                rw [hrec, optionBind_some] at h
                cases h
                exact priceQuiet_trans
                  (priceQuiet_removeOrderById σ (side == Bid) _ σ1 hrem)
                  (ih σ1 0 σr qr tr hrec)
          · cases hrem : removeOrderById σ (side == Bid) ((σ.orders hv).orderID) with
            | none => rw [hrem] at h; cases h
            | some σ1 =>
              rw [hrem, optionBind_some] at h
              cases hrec : processOrderList side la fuel σ1 q with
              | none => rw [hrec] at h; cases h
              | some r =>
                obtain ⟨σr, qr, tr⟩ := r
                rw [hrec, optionBind_some] at h
                cases h
                exact priceQuiet_trans
                  (priceQuiet_removeOrderById σ (side == Bid) _ σ1 hrem)
                  (ih σ1 _ σr qr tr hrec)
    · cases h
      exact priceQuiet_refl _

theorem priceQuiet_limitBidLoop (price : Int) :
    ∀ (fuel : Nat) (σ : State) (q : Int) (σ2 : State) (q2 : Int) (ts : List Trade),
      limitBidLoop price fuel σ q = some (σ2, q2, ts) → priceQuiet σ σ2 := by
  intro fuel
  induction fuel with
  | zero =>
    intro σ q σ2 q2 ts h
    simp only [limitBidLoop] at h
    split at h
    · cases h
    · cases h
      exact priceQuiet_refl _
  | succ fuel ih =>
    intro σ q σ2 q2 ts h
    simp only [limitBidLoop] at h
    split at h
    · split at h
      · cases h
      · rename_i la hla
        cases hp : processOrderList Ask la fuel σ q with
        | none => rw [hp] at h; cases h
        | some r =>
          obtain ⟨σ1, q1, ts1⟩ := r
          rw [hp, optionBind_some] at h
          cases hr : limitBidLoop price fuel σ1 q1 with
          | none => rw [hr] at h; cases h
          | some r2 =>
            obtain ⟨σr, qr, tsr⟩ := r2
            rw [hr, optionBind_some] at h
            cases h
            exact priceQuiet_trans
              (priceQuiet_processOrderList Ask la fuel σ q σ1 q1 ts1 hp)
              (ih σ1 q1 σr qr tsr hr)
    · cases h
      exact priceQuiet_refl _

theorem priceQuiet_limitAskLoop (price : Int) :
    ∀ (fuel : Nat) (σ : State) (q : Int) (σ2 : State) (q2 : Int) (ts : List Trade),
      limitAskLoop price fuel σ q = some (σ2, q2, ts) → priceQuiet σ σ2 := by
  intro fuel
  induction fuel with
  | zero =>
    intro σ q σ2 q2 ts h
    simp only [limitAskLoop] at h
    split at h
    · cases h
    · cases h
      exact priceQuiet_refl _
  | succ fuel ih =>
    intro σ q σ2 q2 ts h
    simp only [limitAskLoop] at h
    split at h
    · split at h
      · cases h
      · rename_i la hla
        cases hp : processOrderList Bid la fuel σ q with
        | none => rw [hp] at h; cases h
        | some r =>
          obtain ⟨σ1, q1, ts1⟩ := r
          rw [hp, optionBind_some] at h
          cases hr : limitAskLoop price fuel σ1 q1 with
          | none => rw [hr] at h; cases h
          | some r2 =>
            obtain ⟨σr, qr, tsr⟩ := r2
            rw [hr, optionBind_some] at h
            cases h
            exact priceQuiet_trans
              (priceQuiet_processOrderList Bid la fuel σ q σ1 q1 ts1 hp)
              (ih σ1 q1 σr qr tsr hr)
    · cases h
      exact priceQuiet_refl _

theorem book_appendOrder (σ : State) (la oa : Nat) (σ2 : State)
    (h : appendOrder σ la oa = some σ2) : σ2.book = σ.book := by
  simp only [appendOrder] at h
  split at h
  · cases h; rfl
  · split at h
    · cases h
    · cases h; rfl

theorem mem_treePut (l : List Int) (p x : Int) (h : x ∈ treePut l p) :
    x = p ∨ x ∈ l := by
  rw [treePut] at h
  split at h
  · exact Or.inr h
  · rcases List.mem_cons.mp h with h1 | h1
    · exact Or.inl h1
    · exact Or.inr h1

theorem getTree_createPrice_ne (σ : State) (b c : Bool) (p : Int) (h : b ≠ c) :
    getTree (createPrice σ b p) c = getTree σ c := by
  simp only [createPrice]
  rw [getTree_modTree_ne _ _ _ _ h]
  cases c <;> rfl

theorem priceTree_createPrice (σ : State) (b : Bool) (p : Int) :
    (getTree (createPrice σ b p) b).priceTree = treePut (getTree σ b).priceTree p := by
  cases b <;> rfl

/-- What `InsertOrder` does to the two price trees: the opposite tree is
untouched, and the only price the own side can gain is the inserted order's
price. -/
theorem insertOrder_frame (σ : State) (b : Bool) (oa : Nat) (σ2 : State)
    (h : insertOrder σ b oa = some σ2) :
    getTree σ2 (!b) = getTree σ (!b) ∧
    ∀ x, x ∈ (getTree σ2 b).priceTree →
      x = (σ.orders oa).price ∨ x ∈ (getTree σ b).priceTree := by
  have hbb : ∀ (x : Option State) (f : State → Option State),
      (x >>= f) = x.bind f := fun _ _ => rfl
  simp only [insertOrder] at h
  split at h
  · cases h1 : removeOrderById σ b ((σ.orders oa).orderID) with
    | none => rw [h1] at h; cases h
    | some σ1 =>
      rw [h1, optionBind_some] at h
      have hfr := consumeFrame_removeOrderById σ b _ σ1 h1
      have hpq := priceQuiet_removeOrderById σ b _ σ1 h1
      split at h
      · cases h
      · rename_i la hla
        rw [hbb, Option.bind_eq_some] at h
        obtain ⟨σ5, h5, h⟩ := h
        cases h
        constructor
        · rw [getTree_modTree_ne _ _ _ _ (bool_not_ne b),
            getTree_modTree_ne _ _ _ _ (bool_not_ne b),
            getTree_of_book_eq (book_appendOrder _ la oa σ5 h5),
            getTree_of_book_eq (book_updOrder _ _ _)]
          split
          · rw [getTree_modTree_ne _ _ _ _ (bool_not_ne b)]
            exact hfr.2.2.1
          · rw [getTree_createPrice_ne _ _ _ _ (bool_not_ne b),
              getTree_modTree_ne _ _ _ _ (bool_not_ne b)]
            exact hfr.2.2.1
        · intro x hx
          simp only [getTree_modTree] at hx
          rw [getTree_of_book_eq (book_appendOrder _ la oa σ5 h5),
            getTree_of_book_eq (book_updOrder _ _ _)] at hx
          split at hx
          · simp only [getTree_modTree] at hx
            exact Or.inr (hfr.2.2.2.1.subset hx)
          · rw [priceTree_createPrice] at hx
            rcases mem_treePut _ _ _ hx with h2 | h2
            · rw [orders_modTree] at h2
              rw [hpq oa] at h2
              exact Or.inl h2
            · simp only [getTree_modTree] at h2
              exact Or.inr (hfr.2.2.2.1.subset h2)
  · rw [optionBind_some] at h
    split at h
    · cases h
    · rename_i la hla
      rw [hbb, Option.bind_eq_some] at h
      obtain ⟨σ5, h5, h⟩ := h
      cases h
      constructor
      · rw [getTree_modTree_ne _ _ _ _ (bool_not_ne b),
          getTree_modTree_ne _ _ _ _ (bool_not_ne b),
          getTree_of_book_eq (book_appendOrder _ la oa σ5 h5),
          getTree_of_book_eq (book_updOrder _ _ _)]
        split
        · rw [getTree_modTree_ne _ _ _ _ (bool_not_ne b)]
        · rw [getTree_createPrice_ne _ _ _ _ (bool_not_ne b),
            getTree_modTree_ne _ _ _ _ (bool_not_ne b)]
      · intro x hx
        simp only [getTree_modTree] at hx
        rw [getTree_of_book_eq (book_appendOrder _ la oa σ5 h5),
          getTree_of_book_eq (book_updOrder _ _ _)] at hx
        split at hx
        · simp only [getTree_modTree] at hx
          exact Or.inr hx
        · rw [priceTree_createPrice] at hx
          rcases mem_treePut _ _ _ hx with h2 | h2
          · rw [orders_modTree] at h2
            exact Or.inl h2
          · simp only [getTree_modTree] at h2
            exact Or.inr h2

theorem foldl_max_bounds (l : List Int) :
    ∀ a : Int, a ≤ l.foldl max a ∧ ∀ x ∈ l, x ≤ l.foldl max a := by
  induction l with
  | nil =>
    intro a
    exact ⟨le_refl a, by intro x hx; cases hx⟩
  | cons b t ih =>
    intro a
    simp only [List.foldl_cons]
    constructor
    · exact le_trans (le_max_left a b) (ih (max a b)).1
    · intro x hx
      rcases List.mem_cons.mp hx with h1 | h1
      · subst h1
        exact le_trans (le_max_right a x) (ih (max a x)).1
      · exact (ih (max a b)).2 x h1

theorem foldl_max_mem (l : List Int) :
    ∀ a : Int, l.foldl max a = a ∨ l.foldl max a ∈ l := by
  induction l with
  | nil => intro a; exact Or.inl rfl
  | cons b t ih =>
    intro a
    simp only [List.foldl_cons]
    rcases ih (max a b) with h1 | h1
    · rcases max_choice a b with h2 | h2
      · exact Or.inl (h1.trans h2)
      · rw [h1, h2]
        exact Or.inr (List.mem_cons_self b t)
    · exact Or.inr (List.mem_cons_of_mem b h1)

theorem foldl_min_bounds (l : List Int) :
    ∀ a : Int, l.foldl min a ≤ a ∧ ∀ x ∈ l, l.foldl min a ≤ x := by
  induction l with
  | nil =>
    intro a
    exact ⟨le_refl a, by intro x hx; cases hx⟩
  | cons b t ih =>
    intro a
    simp only [List.foldl_cons]
    constructor
    · exact le_trans (ih (min a b)).1 (min_le_left a b)
    · intro x hx
      rcases List.mem_cons.mp hx with h1 | h1
      · subst h1
        exact le_trans (ih (min a x)).1 (min_le_right a x)
      · exact (ih (min a b)).2 x h1

theorem foldl_min_mem (l : List Int) :
    ∀ a : Int, l.foldl min a = a ∨ l.foldl min a ∈ l := by
  induction l with
  | nil => intro a; exact Or.inl rfl
  | cons b t ih =>
    intro a
    simp only [List.foldl_cons]
    rcases ih (min a b) with h1 | h1
    · rcases min_choice a b with h2 | h2
      · exact Or.inl (h1.trans h2)
      · rw [h1, h2]
        exact Or.inr (List.mem_cons_self b t)
    · exact Or.inr (List.mem_cons_of_mem b h1)

/-- With a positive depth and a non-empty key list, `MinPrice` returns one of
the tree's prices. -/
theorem minPrice_mem_asks (σf : State)
    (hd : (getTree σf false).depth > 0)
    (hne : (getTree σf false).priceTree ≠ []) :
    minPrice σf false ∈ (getTree σf false).priceTree := by
  simp only [minPrice]
  rw [if_pos hd]
  cases hL : (getTree σf false).priceTree with
  | nil => exact absurd hL hne
  | cons a t =>
    show t.foldl min a ∈ a :: t
    rcases foldl_min_mem t a with h1 | h1
    · rw [h1]
      exact List.mem_cons_self a t
    · exact List.mem_cons_of_mem a h1

/-- With a positive depth, `MaxPrice` bounds every price of the bid tree. -/
theorem le_maxPrice_bids (σ1 : State) (hd : (getTree σ1 true).depth > 0) :
    ∀ x ∈ (getTree σ1 true).priceTree, x ≤ maxPrice σ1 true := by
  intro x hx
  simp only [maxPrice]
  rw [if_pos hd]
  cases hL : (getTree σ1 true).priceTree with
  | nil => rw [hL] at hx; cases hx
  | cons a t =>
    rw [hL] at hx
    show x ≤ t.foldl max a
    rcases List.mem_cons.mp hx with h1 | h1
    · subst h1
      exact (foldl_max_bounds t x).1
    · exact (foldl_max_bounds t a).2 x h1

/-- With a positive depth and a non-empty key list, `MaxPrice` is below any
bound that every price of the bid tree is below. -/
theorem maxPrice_lt_of_forall (σf : State) (bound : Int)
    (hd : (getTree σf true).depth > 0)
    (hne : (getTree σf true).priceTree ≠ [])
    (hall : ∀ x ∈ (getTree σf true).priceTree, x < bound) :
    maxPrice σf true < bound := by
  simp only [maxPrice]
  rw [if_pos hd]
  cases hL : (getTree σf true).priceTree with
  | nil => exact absurd hL hne
  | cons a t =>
    show t.foldl max a < bound
    rcases foldl_max_mem t a with h1 | h1
    · rw [h1]
      refine hall a ?_
      rw [hL]
      exact List.mem_cons_self a t
    · refine hall _ ?_
      rw [hL]
      exact List.mem_cons_of_mem a h1

/-- A non-crossed pair of price sets stays non-crossed when both shrink. -/
theorem cross_of_subsets (σ σf : State)
    (hsubB : ∀ x ∈ (getTree σf true).priceTree, x ∈ (getTree σ true).priceTree)
    (hsubA : ∀ x ∈ (getTree σf false).priceTree, x ∈ (getTree σ false).priceTree)
    (hcross : ∀ pb ∈ (getTree σ true).priceTree,
      ∀ pa ∈ (getTree σ false).priceTree, pb < pa)
    (hdB : (getTree σf true).depth > 0) (hdA : (getTree σf false).depth > 0)
    (hneB : (getTree σf true).priceTree ≠ [])
    (hneA : (getTree σf false).priceTree ≠ []) :
    maxPrice σf true < minPrice σf false := by
  refine maxPrice_lt_of_forall σf _ hdB hneB ?_
  intro x hx
  exact hcross x (hsubB x hx) _ (hsubA _ (minPrice_mem_asks σf hdA hneA))

/-- C8 (amended).  The claim's inequality is inverted: what `ProcessLimitOrder`
actually guarantees is that the book never *crosses*.  Starting from a book
whose bid prices all lie strictly below all ask prices, after any completed
`ProcessLimitOrder` call whose final state has both sides non-empty (orders
present, positive recorded depth, prices present), `Bids.MaxPrice()` is
strictly *below* `Asks.MinPrice()` — that is, `bids.maxPrice ≥ asks.minPrice`
never holds, not `bids.maxPrice ≤ asks.minPrice` as claimed. -/
theorem limit_order_never_crosses_book
    (σ : State) (qa fuel : Nat) (σf : State) (trades : List Trade)
    (resid : Option Nat)
    (hrun : processLimitOrder σ qa fuel = some (σf, trades, resid))
    (hcross : ∀ pb ∈ (getTree σ true).priceTree,
      ∀ pa ∈ (getTree σ false).priceTree, pb < pa)
    (hlenB : treeLength σf true > 0) (hlenA : treeLength σf false > 0)
    (hdB : (getTree σf true).depth > 0) (hdA : (getTree σf false).depth > 0)
    (hneB : (getTree σf true).priceTree ≠ [])
    (hneA : (getTree σf false).priceTree ≠ []) :
    maxPrice σf true < minPrice σf false := by
  simp only [processLimitOrder] at hrun
  cases hbid : (((σ.orders qa).side) == Bid) with
  | true =>
    rw [hbid] at hrun
    simp only [if_true] at hrun
    cases hloop : limitBidLoop ((σ.orders qa).price) fuel σ ((σ.orders qa).quantity) with
    | none => rw [hloop] at hrun; cases hrun
    | some r =>
      obtain ⟨σ1, q1, ts1⟩ := r
      rw [hloop, optionBind_some] at hrun
      have hfr := consumeFrame_limitBidLoop ((σ.orders qa).price) fuel σ
        ((σ.orders qa).quantity) σ1 q1 ts1 hloop
      have hpq := priceQuiet_limitBidLoop ((σ.orders qa).price) fuel σ
        ((σ.orders qa).quantity) σ1 q1 ts1 hloop
      have hexit := limitBidLoop_exit ((σ.orders qa).price) fuel σ
        ((σ.orders qa).quantity) σ1 q1 ts1 hloop
      have hB1 : getTree σ1 true = getTree σ true := by
        have h0 := hfr.2.2.1
        rw [Bool.not_false] at h0
        exact h0
      split at hrun
      · rename_i hq1
        cases hins : insertOrder (updOrder σ1 qa fun o =>
            { o with orderID := σ1.book.nextOrderID, quantity := q1 }) true qa with
        | none => rw [hins] at hrun; cases hrun
        | some σ6 =>
          rw [hins, optionBind_some] at hrun
          cases hrun
          obtain ⟨hother, hmem⟩ := insertOrder_frame _ true qa _ hins
          rw [Bool.not_true] at hother
          have hupB : getTree (updOrder σ1 qa fun o =>
              { o with orderID := σ1.book.nextOrderID, quantity := q1 }) true =
              getTree σ1 true := getTree_of_book_eq (book_updOrder _ _ _) true
          have hupA : getTree (updOrder σ1 qa fun o =>
              { o with orderID := σ1.book.nextOrderID, quantity := q1 }) false =
              getTree σ1 false := getTree_of_book_eq (book_updOrder _ _ _) false
          rw [hupA] at hother
          have hminf : minPrice σf false = minPrice σ1 false := by
            simp only [minPrice]
            rw [hother]
          have hlen1 : treeLength σ1 false > 0 := by
            have htl : treeLength σf false = treeLength σ1 false := by
              simp only [treeLength]
              rw [hother]
            exact htl ▸ hlenA
          have hqlt : (σ.orders qa).price < minPrice σ1 false := by
            by_contra hno
            push_neg at hno
            exact hexit ⟨hq1, hlen1, hno⟩
          refine maxPrice_lt_of_forall σf (minPrice σf false) hdB hneB ?_
          intro x hx
          rcases hmem x hx with h1 | h1
          · rw [orders_updOrder_same] at h1
            have h1x : x = (σ1.orders qa).price := h1
            rw [h1x, hpq qa, hminf]
            exact hqlt
          · rw [hupB, hB1] at h1
            have hm := minPrice_mem_asks σf hdA hneA
            rw [hother] at hm
            exact hcross x h1 _ (hfr.2.2.2.1.subset hm)
      · cases hrun
        refine cross_of_subsets σ σ1 ?_ ?_ hcross hdB hdA hneB hneA
        · intro x hx
          rw [hB1] at hx
          exact hx
        · intro x hx
          exact hfr.2.2.2.1.subset hx
  | false =>
    rw [hbid] at hrun
    simp only [Bool.false_eq_true, if_false] at hrun
    cases hask : (((σ.orders qa).side) == Ask) with
    | true =>
      rw [hask] at hrun
      simp only [if_true] at hrun
      cases hloop : limitAskLoop ((σ.orders qa).price) fuel σ ((σ.orders qa).quantity) with
      | none => rw [hloop] at hrun; cases hrun
      | some r =>
        obtain ⟨σ1, q1, ts1⟩ := r
        rw [hloop, optionBind_some] at hrun
        have hfr := consumeFrame_limitAskLoop ((σ.orders qa).price) fuel σ
          ((σ.orders qa).quantity) σ1 q1 ts1 hloop
        have hpq := priceQuiet_limitAskLoop ((σ.orders qa).price) fuel σ
          ((σ.orders qa).quantity) σ1 q1 ts1 hloop
        have hexit := limitAskLoop_exit ((σ.orders qa).price) fuel σ
          ((σ.orders qa).quantity) σ1 q1 ts1 hloop
        have hA1 : getTree σ1 false = getTree σ false := by
          have h0 := hfr.2.2.1
          rw [Bool.not_true] at h0
          exact h0
        split at hrun
        · rename_i hq1
          cases hins : insertOrder (updOrder σ1 qa fun o =>
              { o with orderID := σ1.book.nextOrderID, quantity := q1 }) false qa with
          | none => rw [hins] at hrun; cases hrun
          | some σ6 =>
            rw [hins, optionBind_some] at hrun
            cases hrun
            obtain ⟨hother, hmem⟩ := insertOrder_frame _ false qa _ hins
            rw [Bool.not_false] at hother
            have hupB : getTree (updOrder σ1 qa fun o =>
                { o with orderID := σ1.book.nextOrderID, quantity := q1 }) true =
                getTree σ1 true := getTree_of_book_eq (book_updOrder _ _ _) true
            have hupA : getTree (updOrder σ1 qa fun o =>
                { o with orderID := σ1.book.nextOrderID, quantity := q1 }) false =
                getTree σ1 false := getTree_of_book_eq (book_updOrder _ _ _) false
            rw [hupB] at hother
            have hd1 : (getTree σ1 true).depth > 0 := by
              rw [← hother]
              exact hdB
            have hlen1 : treeLength σ1 true > 0 := by
              have htl : treeLength σf true = treeLength σ1 true := by
                simp only [treeLength]
                rw [hother]
              exact htl ▸ hlenB
            have hmax : maxPrice σ1 true < (σ.orders qa).price := by
              by_contra hno
              push_neg at hno
              exact hexit ⟨hq1, hlen1, hno⟩
            refine maxPrice_lt_of_forall σf (minPrice σf false) hdB hneB ?_
            intro x hx
            rw [hother] at hx
            have hm := minPrice_mem_asks σf hdA hneA
            rcases hmem _ hm with h1 | h1
            · rw [orders_updOrder_same] at h1
              have h1x : minPrice σf false = (σ1.orders qa).price := h1
              rw [h1x, hpq qa]
              exact lt_of_le_of_lt (le_maxPrice_bids σ1 hd1 x hx) hmax
            · rw [hupA, hA1] at h1
              exact hcross x (hfr.2.2.2.1.subset hx) _ h1
        · cases hrun
          refine cross_of_subsets σ σ1 ?_ ?_ hcross hdB hdA hneB hneA
          · intro x hx
            exact hfr.2.2.2.1.subset hx
          · intro x hx
            rw [hA1] at hx
            exact hx
    | false =>
      rw [hask] at hrun
      simp only [Bool.false_eq_true, if_false] at hrun
      cases hrun
      exact cross_of_subsets σ σ (fun x hx => hx) (fun x hx => hx) hcross
        hdB hdA hneB hneA

/-- C8 counterexample: rest a SELL at 200 by one `ProcessLimitOrder` call,
then a BUY at 100 by another.  Both calls complete, both trees of the final
book are non-empty, and `bids.maxPrice ≤ asks.minPrice` (100 ≤ 200) *does*
hold — the claim says it never does.  (The spec has the inequality backwards:
a resting book satisfies max bid < min ask.) -/
theorem book_crossing_claim_fails :
    (processLimitOrder sampleC8 1 4).isSome = true ∧
    (processLimitOrder c8mid 2 4).isSome = true ∧
    treeLength c8res.1 true > 0 ∧ treeLength c8res.1 false > 0 ∧
    maxPrice c8res.1 true ≤ minPrice c8res.1 false := by
  decide

/-- C8 witness for the amended theorem: the BUY at 100 against the book
holding only the SELL at 200 leaves max bid 100 strictly below min ask
200. -/
theorem limit_order_never_crosses_book_witness :
    maxPrice c8res.1 true < minPrice c8res.1 false :=
  limit_order_never_crosses_book c8mid 2 4 c8res.1 c8res.2.1 c8res.2.2 rfl
    (by decide) (by decide) (by decide) (by decide) (by decide) (by decide)
    (by decide)

/-! ## C5 — the RemovePrice bug in UpdateOrder -/
/-- C5.  Evaluation of `OrderTree.UpdateOrder` at the failing input: one
resting SELL order (id 1) at price 100, updated to price 200.  The old
price's list empties, but the source calls `RemovePrice` with the *new*
price, so afterwards price 100 is still present in both `PriceTree` and
`PriceMap` (with its emptied list), price 200 was first removed from nothing
and then created, and `Depth` ends at 1 while both price indices hold two
entries.  The claim — remove the *old* price — is what the spec intends and
the code does not do. -/
theorem updateOrder_removes_new_price_not_old :
    (treeUpdateOrder sampleAsk100 false 2).map
      (fun σ => (σ.book.asks.depth,
                 σ.book.asks.priceTree.contains 100,
                 (lookupA σ.book.asks.priceMap 100).isSome,
                 σ.book.asks.priceTree.contains 200,
                 (lookupA σ.book.asks.priceMap 200).isSome))
      = some (1, true, true, true, true) := by
  decide

/-! ## C6 — aggregate invariants after public operations -/
/-- C6.  Evaluation at the failing input: a single resting BUY of quantity 5
partially filled by a market SELL of quantity 3 through the public
`ProcessOrder`.  `UpdateQuantity` adjusts only the list's volume, never the
tree's, so afterwards the bid tree's `Volume` is still 5 while the sum of
its lists' volumes is 2 — the claimed invariant
`Volume = Σ list.volume` is violated (and `treeConsistent` is false). -/
theorem invariants_fail_after_partial_fill :
    (processOrder sampleBid100 2 11 4).map
      (fun s => (s.1.book.bids.volume, sumListVolumes s.1 s.1.book.bids,
                 decide (treeConsistent s.1 s.1.book.bids)))
      = some (5, 2, false) := by
  decide

end Tomox
